import Mathlib

/-!
Verification of the ArbsoScraper repository (src/linkweb.py and src/scraper.py).

A shallow embedding: Python strings are modelled as `List Char`; the parts of
`urllib.parse` exercised by the code (urlparse / urljoin / urlunparse) are
translated from the CPython sources; the two crawl loops are modelled as
fuel-indexed state machines over an external renderer oracle
(`Url → Option (List Url)`, `none` = timeout or other fetch failure); the
markdown transducer (`inline_md` / `block_md` / `clean_html`) is a direct
translation of scraper.py.
-/

/-- Python `str.lower` (ASCII case folding; the source only lowercases
schemes, tag names and URL paths, which are ASCII). -/
def pyLower (s : List Char) : List Char := s.map Char.toLower

/-- Python `s.startswith(t)`. -/
def startswith : List Char → List Char → Bool
  | _, [] => true
  | [], _ :: _ => false
  | c :: s, d :: t => if c = d then startswith s t else false

/-- Python `s.endswith(t)`. -/
def endswith (s t : List Char) : Bool := startswith s.reverse t.reverse

/-- Python whitespace as stripped by `str.strip()` (ASCII subset). -/
def pySpace (c : Char) : Bool :=
  c == ' ' || c == '\t' || c == '\n' || c == '\r' || c == '\x0b' || c == '\x0c'

/-- Python `str.lstrip()`. -/
def lstripWS (s : List Char) : List Char := s.dropWhile pySpace

/-- Python `str.rstrip()`. -/
def rstripWS (s : List Char) : List Char := (s.reverse.dropWhile pySpace).reverse

/-- Python `str.strip()`. -/
def stripWS (s : List Char) : List Char := rstripWS (lstripWS s)

/-- Python `str.lstrip("/")`. -/
def stripLeadingSlashes (s : List Char) : List Char := s.dropWhile (fun c => c == '/')

/-- Python `str.split(sep)` for a one-character separator (keeps empty parts). -/
def pySplit (sep : Char) : List Char → List (List Char)
  | [] => [[]]
  | c :: rest =>
    if c = sep then [] :: pySplit sep rest
    else
      match pySplit sep rest with
      | [] => [[c]]
      | s :: ss => (c :: s) :: ss

abbrev Url := List Char

/-! ## The `urllib.parse` fragment used by the sources (from CPython) -/

namespace UrlLib

structure SplitResult where
  scheme : List Char
  netloc : List Char
  path : List Char
  query : List Char
  fragment : List Char

structure ParseResult where
  scheme : List Char
  netloc : List Char
  path : List Char
  params : List Char
  query : List Char
  fragment : List Char

/-- CPython `scheme_chars`: letters, digits, and `+-.`. -/
def isSchemeChar (c : Char) : Bool := c.isAlphanum || c == '+' || c == '-' || c == '.'

/-- CPython `_UNSAFE_URL_BYTES_TO_REMOVE` = tab, CR, LF. -/
def unsafeByte (c : Char) : Bool := c == '\t' || c == '\r' || c == '\n'

def removeUnsafe (s : List Char) : List Char := s.filter (fun c => !unsafeByte c)

def notNetlocDelim (c : Char) : Bool := !(c == '/' || c == '?' || c == '#')

/-- The scheme-splitting step of CPython `urlsplit`: if the first `:` is at a
positive position, the first character is an ASCII letter and the characters
before the colon are scheme characters, split the (lowercased) scheme off;
otherwise keep the caller-supplied default scheme. -/
def splitScheme (dflt url : List Char) : List Char × List Char :=
  let pre := url.takeWhile (fun c => c != ':')
  let post := url.dropWhile (fun c => c != ':')
  if !post.isEmpty && !pre.isEmpty && (pre.take 1).all Char.isAlpha &&
      (pre.drop 1).all isSchemeChar then
    (pyLower pre, post.drop 1)
  else (dflt, url)

/-- CPython `_splitnetloc` guarded by `url[:2] == '//'`: the netloc runs until
the first `/`, `?` or `#`. -/
def splitNetloc (url : List Char) : List Char × List Char :=
  if startswith url "//".data then
    ((url.drop 2).takeWhile notNetlocDelim, (url.drop 2).dropWhile notNetlocDelim)
  else ([], url)

/-- `url.split('#', 1)` when a `#` is present (fragment defaults to empty). -/
def splitFragment (url : List Char) : List Char × List Char :=
  (url.takeWhile (fun c => c != '#'), (url.dropWhile (fun c => c != '#')).drop 1)

/-- `url.split('?', 1)` when a `?` is present (query defaults to empty). -/
def splitQuery (url : List Char) : List Char × List Char :=
  (url.takeWhile (fun c => c != '?'), (url.dropWhile (fun c => c != '?')).drop 1)

/-- CPython `urlsplit` after the unsafe-byte removal (the IPv6-bracket and
netloc validity checks, which can only raise, are omitted). -/
def urlsplitClean (dflt url : List Char) : SplitResult :=
  let sp := splitScheme dflt url
  let nl := splitNetloc sp.2
  let fr := splitFragment nl.2
  let pq := splitQuery fr.1
  ⟨sp.1, nl.1, pq.1, pq.2, fr.2⟩

/-- CPython `urlsplit` (with `allow_fragments=True`, as all call sites here). -/
def urlsplit (dflt url : List Char) : SplitResult :=
  urlsplitClean (removeUnsafe dflt) (removeUnsafe url)

def uses_params : List (List Char) :=
  ["".data, "ftp".data, "hdl".data, "prospero".data, "http".data, "imap".data,
   "https".data, "shttp".data, "rtsp".data, "rtsps".data, "rtspu".data,
   "sip".data, "sips".data, "mms".data, "sftp".data, "tel".data]

/-- CPython `_splitparams`: split `;params` off the last path segment
(searching from the last `/` when the path has one). -/
def splitparams (url : List Char) : List Char × List Char :=
  if '/' ∈ url then
    let tailSeg := (url.reverse.takeWhile (fun c => c != '/')).reverse
    let stem := (url.reverse.dropWhile (fun c => c != '/')).reverse
    if ';' ∈ tailSeg then
      (stem ++ tailSeg.takeWhile (fun c => c != ';'),
       (tailSeg.dropWhile (fun c => c != ';')).drop 1)
    else (url, [])
  else
    (url.takeWhile (fun c => c != ';'), (url.dropWhile (fun c => c != ';')).drop 1)

/-- CPython `urlparse`. -/
def urlparse (dflt url : List Char) : ParseResult :=
  let s := urlsplit dflt url
  if s.scheme ∈ uses_params ∧ ';' ∈ s.path then
    let pp := splitparams s.path
    ⟨s.scheme, s.netloc, pp.1, pp.2, s.query, s.fragment⟩
  else ⟨s.scheme, s.netloc, s.path, [], s.query, s.fragment⟩

def uses_relative : List (List Char) :=
  ["".data, "ftp".data, "http".data, "gopher".data, "nntp".data, "imap".data,
   "wais".data, "file".data, "https".data, "shttp".data, "mms".data,
   "prospero".data, "rtsp".data, "rtspu".data, "rtsps".data, "sftp".data,
   "svn".data, "svn+ssh".data, "ws".data, "wss".data]

def uses_netloc : List (List Char) :=
  ["".data, "ftp".data, "http".data, "gopher".data, "nntp".data, "telnet".data,
   "imap".data, "wais".data, "file".data, "mms".data, "https".data,
   "shttp".data, "snews".data, "prospero".data, "rtsp".data, "rtspu".data,
   "rtsps".data, "rtp".data, "tel".data, "sip".data, "sips".data, "ws".data,
   "wss".data, "sftp".data, "svn".data, "svn+ssh".data, "nfs".data,
   "git".data, "git+ssh".data]

/-- CPython `urlunsplit`. -/
def urlunsplit (scheme netloc path query fragment : List Char) : List Char :=
  let u1 :=
    if !netloc.isEmpty || (!path.isEmpty && startswith path "//".data) then
      "//".data ++ netloc ++
        (if !path.isEmpty && !startswith path "/".data then '/' :: path else path)
    else path
  let u2 := if !scheme.isEmpty then scheme ++ ':' :: u1 else u1
  let u3 := if !query.isEmpty then u2 ++ '?' :: query else u2
  if !fragment.isEmpty then u3 ++ '#' :: fragment else u3

/-- CPython `urlunparse`. -/
def urlunparse (scheme netloc path params query fragment : List Char) : List Char :=
  urlunsplit scheme netloc (if !params.isEmpty then path ++ ';' :: params else path)
    query fragment

/-- CPython `urljoin`'s `segments[1:-1] = filter(None, segments[1:-1])`. -/
def filterMiddle (l : List (List Char)) : List (List Char) :=
  match l with
  | [] => []
  | [x] => [x]
  | x :: rest =>
    match rest.reverse with
    | [] => [x]
    | lastSeg :: midRev => x :: (midRev.reverse.filter (fun s => !s.isEmpty)) ++ [lastSeg]

/-- CPython `urljoin`'s resolution loop over `segments` (a `..` pops the
accumulated path — `pop` on an empty list is a no-op — and a `.` is skipped). -/
def resolveSegments (segs : List (List Char)) : List (List Char) :=
  segs.foldl
    (fun acc seg =>
      if seg = "..".data then acc.dropLast
      else if seg = ".".data then acc
      else acc ++ [seg]) []

/-- The relative-reference tail of CPython `urljoin` (reached when the
reference has the base's scheme but no netloc of its own): path merging and
`.`/`..` resolution. Split from `urljoin` for proof structure. -/
def urljoinRelative (base url : List Char) : List Char :=
  let b := urlparse [] base
  let p := urlparse b.scheme url
  let netloc := if p.scheme ∈ uses_netloc then b.netloc else p.netloc
  if p.path = [] ∧ p.params = [] then
    urlunparse p.scheme netloc b.path b.params
      (if p.query = [] then b.query else p.query) p.fragment
  else
    let base_parts0 := pySplit '/' b.path
    let base_parts :=
      if base_parts0.getLast? ≠ some [] then base_parts0.dropLast else base_parts0
    let segments :=
      if startswith p.path "/".data then pySplit '/' p.path
      else filterMiddle (base_parts ++ pySplit '/' p.path)
    let resolved0 := resolveSegments segments
    let resolved :=
      if segments.getLast? = some ".".data ∨ segments.getLast? = some "..".data
      then resolved0 ++ [[]] else resolved0
    urlunparse p.scheme netloc (List.intercalate "/".data resolved)
      p.params p.query p.fragment

/-- CPython `urljoin` (with `allow_fragments=True`). -/
def urljoin (base url : List Char) : List Char :=
  if base = [] then url
  else if url = [] then base
  else
    let b := urlparse [] base
    let p := urlparse b.scheme url
    if p.scheme ≠ b.scheme ∨ p.scheme ∉ uses_relative then url
    else
      if p.scheme ∈ uses_netloc ∧ p.netloc ≠ [] then
        urlunparse p.scheme p.netloc p.path p.params p.query p.fragment
      else urljoinRelative base url

end UrlLib

/-! ## linkweb.py -/

namespace Linkweb

def BASE_URL : List Char := "https://sustainability.ucsc.edu".data

/-- `ALLOWED_PREFIX = "/"` in the source (renamed here). -/
def ALLOWED_PREF : List Char := "/".data

def MAX_PAGES : Nat := 2000

def SKIP_EXT : List (List Char) :=
  [".pdf".data, ".doc".data, ".docx".data, ".ppt".data, ".pptx".data,
   ".xls".data, ".xlsx".data, ".csv".data, ".zip".data, ".tar".data,
   ".gz".data, ".jpg".data, ".jpeg".data, ".png".data, ".gif".data]

/-- `strip_fragment`: `url.split("#", 1)[0]`. -/
def strip_fragment (url : List Char) : List Char := url.takeWhile (fun c => c != '#')

/-- `is_internal` from linkweb.py: same scheme set, same netloc as the base,
path under the allowed path, not a binary extension. -/
def is_internal (url : List Char) : Bool :=
  let url2 := strip_fragment url
  let p := UrlLib.urlparse [] url2
  let base_netloc := (UrlLib.urlparse [] BASE_URL).netloc
  decide (p.scheme = "http".data ∨ p.scheme = "https".data) &&
  decide (p.netloc = base_netloc) &&
  startswith p.path ALLOWED_PREF &&
  !(SKIP_EXT.any (fun e => endswith (pyLower p.path) e))

/-- `normalise` from linkweb.py. -/
def normalise (url : List Char) : List Char :=
  let url2 := if startswith url "//".data then "https:".data ++ url else url
  strip_fragment (UrlLib.urljoin BASE_URL url2)

/-- The hierarchical key that `insert_path` descends: the URL's path with all
leading slashes stripped (`"index"` when that leaves nothing), split on `/`.
`insert_path` creates exactly one nested-dict level per listed segment. -/
def insert_path_segments (url : List Char) : List (List Char) :=
  let path0 := stripLeadingSlashes (UrlLib.urlparse [] url).path
  let path := if path0 = [] then "index".data else path0
  pySplit '/' path

/-- Crawl state of linkweb.py's `crawl`: `visited` records each processed URL
in processing order (the Python set plus its insertion trace — a URL is added
exactly when it is processed); `frontier` is the deque (head = next to pop);
`edges` is the `defaultdict(set)` as an association list (a key is created
when its first edge is added, exactly as `edges[url].add(href)` does). -/
structure CrawlState where
  visited : List Url
  frontier : List Url
  edges : List (Url × List Url)

/-- `edges[src].add(dst)` on the association-list model. -/
def edgesAdd : List (Url × List Url) → Url → Url → List (Url × List Url)
  | [], src, dst => [(src, [dst])]
  | (k, ds) :: rest, src, dst =>
    if k = src then (k, if dst ∈ ds then ds else ds ++ [dst]) :: rest
    else (k, ds) :: edgesAdd rest src dst

/-- `fetch` from linkweb.py, with the Playwright page as an oracle
`render : Url → Option (List Url)`: on success the raw hrefs are returned and
normalised, on timeout or error the fetch returns the empty list. -/
def fetch (render : Url → Option (List Url)) (url : Url) : List Url :=
  match render url with
  | some hrefs => hrefs.map normalise
  | none => []

/-- Body of the `for href in await fetch(...)` loop. -/
def linkStep (visited : List Url) (url : Url)
    (acc : List (Url × List Url) × List Url) (href : Url) :
    List (Url × List Url) × List Url :=
  (edgesAdd acc.1 url href,
   if is_internal href ∧ href ∉ visited then acc.2 ++ [href] else acc.2)

/-- One iteration of the `while frontier and len(visited) < MAX_PAGES` loop:
pop the head, skip if already visited, otherwise mark visited and process the
fetched links. -/
def crawlStep (render : Url → Option (List Url)) (st : CrawlState) : CrawlState :=
  match st.frontier with
  | [] => st
  | url :: rest =>
    if url ∈ st.visited then ⟨st.visited, rest, st.edges⟩
    else
      let visited := url :: st.visited
      let acc := (fetch render url).foldl (linkStep visited url) (st.edges, rest)
      ⟨visited, acc.2, acc.1⟩

/-- The loop guard `frontier and len(visited) < MAX_PAGES`, negated:
the crawl is in its terminal (Done) configuration. -/
def crawlDone (st : CrawlState) : Bool :=
  st.frontier.isEmpty || decide (MAX_PAGES ≤ st.visited.length)

def crawlInit : CrawlState := ⟨[], [BASE_URL], []⟩

/-- The crawl loop, fuel-indexed (the fuel only bounds the number of
iterations; a run that reaches `crawlDone` is a completed crawl). -/
def crawlLoop (render : Url → Option (List Url)) : Nat → CrawlState → CrawlState
  | 0, st => st
  | Nat.succ n, st =>
    if crawlDone st then st else crawlLoop render n (crawlStep render st)

end Linkweb

/-! ## scraper.py -/

namespace Scraper

def BASE_URL : List Char := "https://sustainability.ucsc.edu".data

/-- `ALLOWED_PREFIXES = ("/",)` in the source (renamed here). -/
def ALLOWED_PREFS : List (List Char) := ["/".data]

def MAX_PAGES : Nat := 1000

def SKIP_EXT : List (List Char) :=
  [".pdf".data, ".doc".data, ".docx".data, ".ppt".data, ".pptx".data,
   ".xls".data, ".xlsx".data, ".csv".data, ".zip".data, ".tar".data,
   ".gz".data, ".jpg".data, ".jpeg".data, ".png".data, ".gif".data]

def BULLET : List Char := "- ".data

def INDENT : List Char := "  ".data

def strip_fragment (url : List Char) : List Char := url.takeWhile (fun c => c != '#')

/-- `is_allowed` from scraper.py. -/
def is_allowed (url : List Char) : Bool :=
  let url2 := strip_fragment url
  let p := UrlLib.urlparse [] url2
  decide (p.scheme = "http".data ∨ p.scheme = "https".data) &&
  decide (p.netloc = (UrlLib.urlparse [] BASE_URL).netloc) &&
  !(SKIP_EXT.any (fun e => endswith (pyLower p.path) e)) &&
  ALLOWED_PREFS.any (fun pr => startswith p.path pr)

/-- `url_to_path` from scraper.py, returning the path relative to
`OUTPUT_ROOT` (the `OUTPUT_ROOT / rel` join is filesystem glue). -/
def url_to_path (url sfx : List Char) : List Char :=
  let p := UrlLib.urlparse [] (strip_fragment url)
  let path0 := if p.path = [] then "/".data else p.path
  let path := if endswith path0 "/".data then path0 ++ "index".data else path0
  stripLeadingSlashes path ++ sfx

/-- A parsed document node: a `NavigableString` or a `Tag` with a name,
attributes and children (the BeautifulSoup tree, consumed read-only). -/
inductive Node where
  | text : List Char → Node
  | elem : List Char → List (List Char × List Char) → List Node → Node

/-- `node.get(key, "")`. -/
def getAttr (attrs : List (List Char × List Char)) (k : List Char) : List Char :=
  match attrs.find? (fun a => a.1 == k) with
  | some a => a.2
  | none => []

def namedEntities : List (List Char × Char) :=
  [("amp".data, '&'), ("lt".data, '<'), ("gt".data, '>'),
   ("quot".data, '"'), ("apos".data, '\'')]

def isHexDigit (c : Char) : Bool :=
  c.isDigit || ('a' ≤ c && c ≤ 'f') || ('A' ≤ c && c ≤ 'F')

def hexVal (c : Char) : Nat :=
  if c.isDigit then c.toNat - '0'.toNat
  else if 'a' ≤ c && c ≤ 'f' then c.toNat - 'a'.toNat + 10
  else c.toNat - 'A'.toNat + 10

def digitsVal (base : Nat) (toVal : Char → Nat) (ds : List Char) : Nat :=
  ds.foldl (fun acc c => acc * base + toVal c) 0

/-- Try to read one character reference right after a `&`; returns the decoded
character and the number of input characters consumed. -/
def matchEntity (s : List Char) : Option (Char × Nat) :=
  match s with
  | '#' :: rest =>
    match rest with
    | c :: ds0 =>
      if c == 'x' || c == 'X' then
        let ds := ds0.takeWhile isHexDigit
        if ds ≠ [] ∧ (ds0.drop ds.length).head? = some ';' then
          some (Char.ofNat (digitsVal 16 hexVal ds), ds.length + 3)
        else none
      else
        let ds := rest.takeWhile Char.isDigit
        if ds ≠ [] ∧ (rest.drop ds.length).head? = some ';' then
          some (Char.ofNat (digitsVal 10 (fun d => d.toNat - '0'.toNat) ds), ds.length + 2)
        else none
    | [] => none
  | _ =>
    match namedEntities.find? (fun e => startswith s (e.1 ++ [';'])) with
    | some e => some (e.2, e.1.length + 1)
    | none => none

def unescapeAux : List Char → List Char
  | [] => []
  | '&' :: rest =>
    (match matchEntity rest with
     | some (c, k) => c :: unescapeAux (rest.drop k)
     | none => '&' :: unescapeAux rest)
  | c :: rest => c :: unescapeAux rest
termination_by s => s.length
decreasing_by
  all_goals simp [List.length_drop]
  all_goals omega

/-- Model of the stdlib `html.unescape` used on text leaves: text without a
`&` is returned unchanged (exactly as in the stdlib); numeric character
references and the XML named entities are decoded; the stdlib's full HTML5
entity table is not reproduced (no claim exercises entity decoding). -/
def unescape (s : List Char) : List Char :=
  if '&' ∈ s then unescapeAux s else s

mutual

/-- `inline_md` from scraper.py. -/
def inline_md : Node → List Char
  | Node.text s => unescape s
  | Node.elem name attrs children =>
    let nm := pyLower name
    if nm = "strong".data ∨ nm = "b".data then
      "**".data ++ inlineChildren children ++ "**".data
    else if nm = "em".data ∨ nm = "i".data then
      "*".data ++ inlineChildren children ++ "*".data
    else if nm = "a".data then
      let txt := stripWS (inlineChildren children)
      let href := stripWS (getAttr attrs "href".data)
      if href ≠ [] ∧ startswith href "http".data = true ∧ href ≠ txt then
        "[".data ++ txt ++ "](".data ++ href ++ ")".data
      else txt
    else if nm = "br".data then "\n".data
    else inlineChildren children

/-- `''.join(inline_md(c) for c in node.children)`. -/
def inlineChildren : List Node → List Char
  | [] => []
  | c :: cs => inline_md c ++ inlineChildren cs

end

def headingNames : List (List Char) :=
  ["h1".data, "h2".data, "h3".data, "h4".data, "h5".data, "h6".data]

/-- `int(name[1])` for a heading tag name. -/
def headingLevel (nm : List Char) : Nat :=
  match nm.drop 1 with
  | [c] => c.toNat - '0'.toNat
  | _ => 0

def isContainerChildName (n : List Char) : Bool :=
  n == "p".data || n == "div".data || n == "ul".data || n == "ol".data ||
  n == "li".data || n == "section".data

/-- `isinstance(c, Tag) and c.name.lower() in {"p","div","ul","ol","li","section"}`. -/
def isBlockTag : Node → Bool
  | Node.text _ => false
  | Node.elem n _ _ => isContainerChildName (pyLower n)

mutual

/-- `block_md` from scraper.py. -/
def block_md : Node → Nat → List Char
  | Node.text s, _ => inline_md (Node.text s)
  | Node.elem name attrs children, depth =>
    let nm := pyLower name
    if nm ∈ headingNames then
      List.replicate (headingLevel nm) '#' ++ " ".data ++
        inline_md (Node.elem name attrs children) ++ "\n\n".data
    else if nm = "p".data ∨ nm = "div".data ∨ nm = "section".data then
      if children.any isBlockTag then blockChildren children depth
      else stripWS (inline_md (Node.elem name attrs children)) ++ "\n\n".data
    else if nm = "ul".data then
      List.intercalate "\n".data (ulItems children depth) ++ "\n\n".data
    else if nm = "ol".data then
      List.intercalate "\n".data (olItems children depth 1) ++ "\n\n".data
    else if nm = "li".data then
      stripWS (blockChildren children depth)
    else blockChildren children depth

/-- `''.join(block_md(c, depth) for c in node.children)`. -/
def blockChildren : List Node → Nat → List Char
  | [], _ => []
  | c :: cs, depth => block_md c depth ++ blockChildren cs depth

/-- The `for li in node.find_all("li", recursive=False)` loop of the `ul`
branch (direct children whose tag name is `li`). -/
def ulItems : List Node → Nat → List (List Char)
  | [], _ => []
  | Node.text _ :: cs, depth => ulItems cs depth
  | Node.elem n a kids :: cs, depth =>
    if n = "li".data then
      (List.flatten (List.replicate depth INDENT) ++ BULLET ++
        lstripWS (block_md (Node.elem n a kids) (depth + 1))) :: ulItems cs depth
    else ulItems cs depth

/-- The `for i, li in enumerate(node.find_all("li", recursive=False), 1)`
loop of the `ol` branch. -/
def olItems : List Node → Nat → Nat → List (List Char)
  | [], _, _ => []
  | Node.text _ :: cs, depth, i => olItems cs depth i
  | Node.elem n a kids :: cs, depth, i =>
    if n = "li".data then
      (List.flatten (List.replicate depth INDENT) ++ (toString i).data ++ ". ".data ++
        lstripWS (block_md (Node.elem n a kids) (depth + 1))) :: olItems cs depth (i + 1)
    else olItems cs depth i

end

/-- `clean_html` from scraper.py. BeautifulSoup parsing and the trafilatura
extractor are external libraries: `body?` stands for
`soup.select_one("#main") or soup.select_one(".main-content") or soup.body`
(`none` when no such region exists), and `generic` stands for
`trafilatura_extract(html, include_links=False)` with a `None` result
modelled as the empty string (`None` and `""` are both falsy in the
source's `or`). -/
def clean_html (body? : Option Node) (generic : List Char) : List Char :=
  match body? with
  | none => generic
  | some body =>
    let md := rstripWS (block_md body 0)
    if md.length < 200 then (if generic = [] then md else generic) else md

/-- Crawl state of scraper.py's `crawl` (visited records processing order). -/
structure CrawlState where
  visited : List Url
  frontier : List Url

/-- One iteration of scraper.py's crawl loop. The oracle combines
`fetch_page` and the link extraction: `none` means `fetch_page` returned
`None` (the iteration `continue`s before link discovery); `some links` is the
raw href list from `page.eval_on_selector_all` (an exception there is the
empty list). The RAW/CLEAN file writes do not touch the crawl state. -/
def crawlStep (render : Url → Option (List Url)) (st : CrawlState) : CrawlState :=
  match st.frontier with
  | [] => st
  | url0 :: rest =>
    let url := strip_fragment url0
    if url ∈ st.visited then ⟨st.visited, rest⟩
    else
      let visited := url :: st.visited
      match render url with
      | none => ⟨visited, rest⟩
      | some links =>
        ⟨visited,
         rest ++ (links.map strip_fragment).filter
           (fun l => is_allowed l ∧ l ∉ visited)⟩

def crawlDone (st : CrawlState) : Bool :=
  st.frontier.isEmpty || decide (MAX_PAGES ≤ st.visited.length)

def crawlInit : CrawlState :=
  ⟨[], ALLOWED_PREFS.map (fun p => UrlLib.urljoin BASE_URL p)⟩

def crawlLoop (render : Url → Option (List Url)) : Nat → CrawlState → CrawlState
  | 0, st => st
  | Nat.succ n, st =>
    if crawlDone st then st else crawlLoop render n (crawlStep render st)

end Scraper

/-! ## Verification-layer definitions -/

/-- Membership of one directed edge in the association-list EdgeSet. -/
def edgeRecorded (edges : List (Url × List Url)) (src dst : Url) : Bool :=
  edges.any (fun e => decide (e.1 = src) && decide (dst ∈ e.2))

/-- Invariant of the linkweb crawl loop: the processing trace has no
duplicates (each URL processed exactly once), the visited count respects the
ceiling, every EdgeSet key is visited, and every EdgeSet value is non-empty. -/
def LwInv (st : Linkweb.CrawlState) : Prop :=
  st.visited.Nodup ∧ st.visited.length ≤ Linkweb.MAX_PAGES ∧
  (∀ x ∈ st.edges, x.1 ∈ st.visited) ∧ (∀ x ∈ st.edges, x.2 ≠ [])

/-- Invariant of the scraper crawl loop. -/
def ScInv (st : Scraper.CrawlState) : Prop :=
  st.visited.Nodup ∧ st.visited.length ≤ Scraper.MAX_PAGES

/-- Direct `li` children, as selected by `find_all("li", recursive=False)`. -/
def directLis : List Scraper.Node → List Scraper.Node :=
  List.filter (fun n =>
    match n with
    | Scraper.Node.elem nm _ _ => nm == "li".data
    | Scraper.Node.text _ => false)

/-- The spec's side condition on anchors, following its words: the element
carries an absolute network-scheme link target (scheme `http` or `https`
followed by an authority). -/
def specAbsNetworkHref (href : List Char) : Bool :=
  startswith href "http://".data || startswith href "https://".data

/-- A renderer oracle whose every fetch fails. -/
def renderNone : Url → Option (List Url) := fun _ => none

/-- A renderer oracle returning one in-scope and one out-of-scope link. -/
def renderTwo : Url → Option (List Url) := fun _ =>
  some ["https://sustainability.ucsc.edu/about".data, "https://external.com/a".data]

/-- The document of the C7 scenario: `<h2>Title</h2><ul><li>One</li><li>Two</li></ul>`. -/
def docC7 : Scraper.Node :=
  Scraper.Node.elem "body".data []
    [Scraper.Node.elem "h2".data [] [Scraper.Node.text "Title".data],
     Scraper.Node.elem "ul".data []
       [Scraper.Node.elem "li".data [] [Scraper.Node.text "One".data],
        Scraper.Node.elem "li".data [] [Scraper.Node.text "Two".data]]]

/-- Anchor with text `Home` and href `https://example.org/x`. -/
def homeAnchor : Scraper.Node :=
  Scraper.Node.elem "a".data [("href".data, "https://example.org/x".data)]
    [Scraper.Node.text "Home".data]

/-- Anchor whose text equals its href. -/
def selfAnchor : Scraper.Node :=
  Scraper.Node.elem "a".data [("href".data, "https://example.org/x".data)]
    [Scraper.Node.text "https://example.org/x".data]

/-- Anchor whose href starts with `http` but carries no network scheme. -/
def badAnchor : Scraper.Node :=
  Scraper.Node.elem "a".data [("href".data, "httpgarbage".data)]
    [Scraper.Node.text "x".data]

/-- A content region whose structural rendering is shorter than 200 chars. -/
def shortBody : Scraper.Node := Scraper.Node.text "short".data

/-- A linkweb state whose frontier next processes `"x"` and still holds the
base URL behind it. -/
def c9LwState : Linkweb.CrawlState := ⟨[], ["x".data, Linkweb.BASE_URL], []⟩

/-- A scraper state whose frontier next processes `"x"` and still holds the
base URL behind it. -/
def c9ScState : Scraper.CrawlState := ⟨[], ["x".data, Linkweb.BASE_URL]⟩

/-- A linkweb state about to process the base URL with an untouched EdgeSet. -/
def c10State : Linkweb.CrawlState := ⟨[], [Linkweb.BASE_URL], []⟩

/-! ## Definitions supporting the normalisation analysis (C3) -/

/-- The base URL's network location as both variants parse it. -/
def NETLOC : List Char := "sustainability.ucsc.edu".data

/-- The pre-params path that `urlsplit` extracts from the portion after the
netloc: everything before the first `#`, then before the first `?`. -/
def rawPath (R : List Char) : List Char :=
  (R.takeWhile (fun c => c != '#')).takeWhile (fun c => c != '?')

/-- The query that `urlsplit` extracts from the portion after the netloc. -/
def rawQuery (R : List Char) : List Char :=
  ((R.takeWhile (fun c => c != '#')).dropWhile (fun c => c != '?')).drop 1

/-- The fragment that `urlsplit` extracts from the portion after the netloc. -/
def rawFragment (R : List Char) : List Char :=
  (R.dropWhile (fun c => c != '#')).drop 1

/-- The path component of `urlparse`, after the params split. -/
def parsePath (p0 : List Char) : List Char :=
  if ';' ∈ p0 then (UrlLib.splitparams p0).1 else p0

/-- The params component of `urlparse`. -/
def parseParams (p0 : List Char) : List Char :=
  if ';' ∈ p0 then (UrlLib.splitparams p0).2 else []

/-- The last `/`-separated segment of a path. -/
def lastSeg (x : List Char) : List Char :=
  (x.reverse.takeWhile (fun c => c != '/')).reverse

/-! ## Generic list lemmas -/

theorem takeWhile_append_all {p : Char → Bool} {l : List Char} (h : ∀ c ∈ l, p c)
    (r : List Char) : (l ++ r).takeWhile p = l ++ r.takeWhile p := by
  induction l with
  | nil => simp
  | cons c t ih =>
    simp only [List.cons_append, List.takeWhile_cons, h c (by simp), if_pos]
    rw [ih (fun d hd => h d (by simp [hd]))]

theorem dropWhile_append_all {p : Char → Bool} {l : List Char} (h : ∀ c ∈ l, p c)
    (r : List Char) : (l ++ r).dropWhile p = r.dropWhile p := by
  induction l with
  | nil => simp
  | cons c t ih =>
    simp only [List.cons_append, List.dropWhile_cons, h c (by simp), if_pos]
    exact ih (fun d hd => h d (by simp [hd]))

theorem takeWhile_all {p : Char → Bool} {l : List Char} (h : ∀ c ∈ l, p c) :
    l.takeWhile p = l := by
  induction l with
  | nil => simp
  | cons c t ih =>
    simp only [List.takeWhile_cons, h c (by simp), if_pos]
    rw [ih (fun d hd => h d (by simp [hd]))]

theorem dropWhile_all {p : Char → Bool} {l : List Char} (h : ∀ c ∈ l, p c) :
    l.dropWhile p = [] := by
  induction l with
  | nil => simp
  | cons c t ih =>
    simp only [List.dropWhile_cons, h c (by simp), if_pos]
    exact ih (fun d hd => h d (by simp [hd]))

theorem mem_takeWhile_both {p : Char → Bool} {l : List Char} {c : Char}
    (h : c ∈ l.takeWhile p) : c ∈ l ∧ p c = true := by
  induction l with
  | nil => simp at h
  | cons d t ih =>
    rw [List.takeWhile_cons] at h
    by_cases hd : p d
    · simp only [hd, if_pos] at h
      rcases List.mem_cons.1 h with h1 | h1
      · exact ⟨by simp [h1], h1 ▸ hd⟩
      · exact ⟨List.mem_cons_of_mem _ (ih h1).1, (ih h1).2⟩
    · simp [hd] at h

theorem dropWhile_head_false {p : Char → Bool} {l t : List Char} {c : Char}
    (h : l.dropWhile p = c :: t) : p c = false := by
  induction l with
  | nil => simp at h
  | cons d r ih =>
    rw [List.dropWhile_cons] at h
    by_cases hd : p d
    · exact ih (by simpa [hd] using h)
    · rw [if_neg (by simpa using hd)] at h
      cases h
      simpa using hd

theorem startswith_append_self (x y : List Char) : startswith (x ++ y) x = true := by
  induction x with
  | nil => cases y <;> rfl
  | cons c t ih => simpa [startswith] using ih

theorem startswith_cons_of_head {c d : Char} {s t : List Char} (h : c ≠ d) :
    startswith (c :: s) (d :: t) = false := by
  simp [startswith, h]

theorem startswith_true_eq {s t : List Char} (h : startswith s t = true) :
    s = t ++ s.drop t.length := by
  induction t generalizing s with
  | nil => simp
  | cons d r ih =>
    cases s with
    | nil => simp [startswith] at h
    | cons c s' =>
      rw [startswith] at h
      by_cases hcd : c = d
      · rw [if_pos hcd] at h
        simpa [hcd] using ih h
      · simp [hcd] at h

theorem endswith_append_self (x y : List Char) : endswith (x ++ y) y = true := by
  simpa [endswith] using startswith_append_self y.reverse x.reverse

theorem endswith_getLast {s : List Char} {c : Char} (h : s.getLast? = some c) :
    endswith s [c] = true := by
  rw [endswith]
  rw [← List.head?_reverse] at h
  cases hr : s.reverse with
  | nil => rw [hr] at h; simp at h
  | cons d t =>
    rw [hr] at h
    simp only [List.head?_cons, Option.some.injEq] at h
    simp [startswith, h]

/-! ## pySplit lemmas -/

theorem pySplit_ne_nil (sep : Char) (l : List Char) : pySplit sep l ≠ [] := by
  cases l with
  | nil => simp [pySplit]
  | cons c t =>
    rw [pySplit]
    by_cases h : c = sep
    · simp [h]
    · simp only [h, if_neg, ne_eq]
      cases pySplit sep t <;> simp

theorem pySplit_length_two {sep : Char} {l : List Char} (h : sep ∈ l) :
    2 ≤ (pySplit sep l).length := by
  induction l with
  | nil => simp at h
  | cons c t ih =>
    rw [pySplit]
    by_cases hc : c = sep
    · rw [if_pos hc]
      have := pySplit_ne_nil sep t
      cases hp : pySplit sep t with
      | nil => exact absurd hp this
      | cons s ss => simp
    · rw [if_neg hc]
      have ht : sep ∈ t := by
        rcases List.mem_cons.1 h with h1 | h1
        · exact absurd h1.symm hc
        · exact h1
      cases hp : pySplit sep t with
      | nil => exact absurd hp (pySplit_ne_nil sep t)
      | cons s ss =>
        have := ih ht
        rw [hp] at this
        simp at this ⊢
        omega

theorem pySplit_getLast_sep {sep : Char} {l : List Char}
    (h : l.getLast? = some sep) : (pySplit sep l).getLast? = some [] := by
  induction l with
  | nil => simp at h
  | cons c t ih =>
    cases t with
    | nil =>
      simp only [List.getLast?_singleton, Option.some.injEq] at h
      simp [pySplit, h]
    | cons d t' =>
      rw [List.getLast?_cons_cons] at h
      have ihr := ih h
      have hsep : sep ∈ d :: t' :=
        List.mem_of_mem_getLast? (by rw [h]; exact rfl)
      rw [pySplit]
      by_cases hc : c = sep
      · rw [if_pos hc]
        cases hp : pySplit sep (d :: t') with
        | nil => exact absurd hp (pySplit_ne_nil _ _)
        | cons s ss => rw [hp] at ihr; rw [List.getLast?_cons_cons]; exact ihr
      · rw [if_neg hc]
        cases hp : pySplit sep (d :: t') with
        | nil => exact absurd hp (pySplit_ne_nil _ _)
        | cons s ss =>
          cases ss with
          | nil =>
            have := pySplit_length_two hsep
            rw [hp] at this
            simp at this
          | cons s2 ss2 =>
            rw [hp] at ihr
            rw [List.getLast?_cons_cons] at ihr ⊢
            exact ihr

/-! ## Transducer lemmas and claims C4-C8 -/

theorem indent_flatten (d : Nat) :
    List.flatten (List.replicate d Scraper.INDENT) = List.replicate (2 * d) ' ' := by
  induction d with
  | zero => rfl
  | succ n ih =>
    rw [List.replicate_succ, List.flatten_cons, ih]
    have h2 : 2 * (n + 1) = 2 + 2 * n := by omega
    rw [h2, List.replicate_add]
    rfl

theorem ulItems_eq (ch : List Scraper.Node) (d : Nat) :
    Scraper.ulItems ch d = (directLis ch).map
      (fun li => List.replicate (2 * d) ' ' ++ Scraper.BULLET ++
        lstripWS (Scraper.block_md li (d + 1))) := by
  induction ch with
  | nil => rfl
  | cons c cs ih =>
    cases c with
    | text s =>
      rw [Scraper.ulItems, ih]
      rfl
    | elem n a kids =>
      by_cases hn : n = "li".data
      · subst hn
        rw [Scraper.ulItems, if_pos rfl, ih, indent_flatten]
        rfl
      · rw [Scraper.ulItems, if_neg hn, ih]
        show _ = List.map _ (List.filter _ _)
        rw [List.filter_cons]
        rw [if_neg (by simpa using hn)]
        rfl

/-- C7: the document `<h2>Title</h2><ul><li>One</li><li>Two</li></ul>` is
transduced by the block layer to exactly
`"## Title\n\n- One\n- Two\n\n"`. -/
theorem C7_h2_ul_document :
    Scraper.block_md docC7 0 = "## Title\n\n- One\n- Two\n\n".data := by decide

/-- C5 counterexample: an anchor whose href `"httpgarbage"` is not an
absolute network-scheme link target (per the spec's wording) is nonetheless
rendered as `[text](href)` rather than as the display text alone, because
the code only checks `href.startswith("http")`. -/
theorem C5_counterexample_non_network_href :
    Scraper.inline_md badAnchor = "[x](httpgarbage)".data ∧
    specAbsNetworkHref
      (stripWS (Scraper.getAttr [("href".data, "httpgarbage".data)] "href".data)) = false ∧
    Scraper.inline_md badAnchor ≠
      stripWS (Scraper.inlineChildren [Scraper.Node.text "x".data]) := by decide

/-- C5 (amended): the inline transducer renders an anchor's children to get
the display text, and emits `[text](href)` exactly when the stripped href is
non-empty, starts with `"http"`, and differs from the display text;
otherwise it emits the display text alone. In particular the `Home` anchor
renders to `[Home](https://example.org/x)` and an anchor whose text equals
its href renders to the bare text. -/
theorem C5_anchor_rendering_amended :
    (∀ (attrs : List (List Char × List Char)) (children : List Scraper.Node),
      Scraper.inline_md (Scraper.Node.elem "a".data attrs children) =
        (if stripWS (Scraper.getAttr attrs "href".data) ≠ [] ∧
            startswith (stripWS (Scraper.getAttr attrs "href".data)) "http".data = true ∧
            stripWS (Scraper.getAttr attrs "href".data) ≠
              stripWS (Scraper.inlineChildren children) then
          "[".data ++ stripWS (Scraper.inlineChildren children) ++ "](".data ++
            stripWS (Scraper.getAttr attrs "href".data) ++ ")".data
        else stripWS (Scraper.inlineChildren children))) ∧
    Scraper.inline_md homeAnchor = "[Home](https://example.org/x)".data ∧
    Scraper.inline_md selfAnchor = "https://example.org/x".data := by
  refine ⟨fun attrs children => ?_, by decide, by decide⟩
  rw [Scraper.inline_md]
  rw [if_neg (by decide), if_neg (by decide), if_pos (by decide)]

/-- C6: an unordered list renders each direct `li` child as an item line of
`2 × depth` spaces, the bullet marker, and the `li`'s block rendering at
depth + 1 with leading whitespace stripped; items are joined with newlines
and the list ends with a trailing blank line. -/
theorem C6_ul_indentation (attrs : List (List Char × List Char))
    (children : List Scraper.Node) (depth : Nat) :
    Scraper.block_md (Scraper.Node.elem "ul".data attrs children) depth =
      List.intercalate "\n".data
        ((directLis children).map
          (fun li => List.replicate (2 * depth) ' ' ++ Scraper.BULLET ++
            lstripWS (Scraper.block_md li (depth + 1)))) ++ "\n\n".data := by
  rw [Scraper.block_md]
  rw [if_neg (by decide), if_neg (by decide), if_pos (by decide)]
  rw [ulItems_eq]

/-- C4: when the located content region's structural rendering (after
trailing-whitespace trim) is shorter than 200 characters, `clean_html`
returns the generic extractor's output if that output is non-empty and the
structural result if the generic extractor yields nothing; a structural
result meeting the threshold is kept unchanged. -/
theorem C4_clean_html_threshold_fallback (body : Scraper.Node) (generic : List Char) :
    ((rstripWS (Scraper.block_md body 0)).length < 200 →
      Scraper.clean_html (some body) generic =
        (if generic = [] then rstripWS (Scraper.block_md body 0) else generic)) ∧
    (200 ≤ (rstripWS (Scraper.block_md body 0)).length →
      Scraper.clean_html (some body) generic = rstripWS (Scraper.block_md body 0)) := by
  constructor
  · intro h
    simp only [Scraper.clean_html]
    rw [if_pos h]
  · intro h
    simp only [Scraper.clean_html]
    rw [if_neg (by omega)]

theorem C4_clean_html_threshold_fallback_witness :
    (rstripWS (Scraper.block_md shortBody 0)).length < 200 ∧
    Scraper.clean_html (some shortBody) "GENERIC TEXT".data = "GENERIC TEXT".data ∧
    Scraper.clean_html (some shortBody) [] = rstripWS (Scraper.block_md shortBody 0) := by
  refine ⟨by decide, ?_, ?_⟩
  · have h := (C4_clean_html_threshold_fallback shortBody "GENERIC TEXT".data).1 (by decide)
    simpa using h
  · have h := (C4_clean_html_threshold_fallback shortBody []).1 (by decide)
    simpa using h

theorem stripLeadingSlashes_append {b : List Char}
    (hb : b.dropWhile (fun c => c == '/') = b) (a : List Char) :
    ∃ a', stripLeadingSlashes (a ++ b) = a' ++ b := by
  induction a with
  | nil => exact ⟨[], hb⟩
  | cons c t ih =>
    by_cases hc : c = '/'
    · rcases ih with ⟨a', ha'⟩
      refine ⟨a', ?_⟩
      rw [stripLeadingSlashes] at ha' ⊢
      rw [List.cons_append, List.dropWhile_cons, if_pos (by simp [hc])]
      exact ha'
    · refine ⟨c :: t, ?_⟩
      rw [stripLeadingSlashes, List.cons_append, List.dropWhile_cons,
        if_neg (by simp [hc])]

/-- C8 counterexample: the URL `https://sustainability.ucsc.edu/about/` has a
trailing-slash path, yet `insert_path` descends the key `["about", ""]` — the
trailing empty segment, not an implicit `index` segment. -/
theorem C8_counterexample_trailing_slash_tree :
    Linkweb.insert_path_segments "https://sustainability.ucsc.edu/about/".data =
      ["about".data, ([] : List Char)] ∧
    "index".data ∉
      Linkweb.insert_path_segments "https://sustainability.ucsc.edu/about/".data := by
  decide

/-- C8 (amended): in the scraping variant, `url_to_path` maps an empty or
trailing-slash path to an `index` filename. In the mapping variant,
`insert_path` maps a path to the `index` segment only when stripping its
leading slashes leaves nothing (empty or all-slash paths); a non-root
trailing-slash path instead produces a trailing empty segment. -/
theorem C8_index_mapping_amended :
    (∀ url sfx,
      ((UrlLib.urlparse [] (Scraper.strip_fragment url)).path = [] ∨
        (UrlLib.urlparse [] (Scraper.strip_fragment url)).path.getLast? = some '/') →
      endswith (Scraper.url_to_path url sfx) ("index".data ++ sfx) = true) ∧
    (∀ url, stripLeadingSlashes (UrlLib.urlparse [] url).path = [] →
      Linkweb.insert_path_segments url = ["index".data]) ∧
    (∀ url, stripLeadingSlashes (UrlLib.urlparse [] url).path ≠ [] →
      (UrlLib.urlparse [] url).path.getLast? = some '/' →
      (Linkweb.insert_path_segments url).getLast? = some []) := by
  refine ⟨fun url sfx h => ?_, fun url h => ?_, fun url h1 h2 => ?_⟩
  · rw [Scraper.url_to_path]
    set p := UrlLib.urlparse [] (Scraper.strip_fragment url) with hp
    have hend : endswith (if p.path = [] then "/".data else p.path) "/".data = true := by
      rcases h with h | h
      · rw [if_pos h]; decide
      · have hne : p.path ≠ [] := by
          intro h0
          rw [h0] at h
          simp at h
        rw [if_neg hne]
        exact endswith_getLast h
    rw [if_pos hend]
    rcases stripLeadingSlashes_append (b := "index".data) (by decide)
      (if p.path = [] then "/".data else p.path) with ⟨a', ha'⟩
    rw [ha', List.append_assoc]
    exact endswith_append_self _ _
  · rw [Linkweb.insert_path_segments]
    rw [h, if_pos rfl]
    decide
  · rw [Linkweb.insert_path_segments]
    rw [if_neg h1]
    apply pySplit_getLast_sep
    rcases hL : (stripLeadingSlashes (UrlLib.urlparse [] url).path).getLast? with _ | y
    · exact absurd (List.getLast?_eq_none_iff.mp hL) h1
    · have hkey : (UrlLib.urlparse [] url).path.getLast? = some y := by
        conv_lhs => rw [← List.takeWhile_append_dropWhile
          (fun c => c == '/') (UrlLib.urlparse [] url).path]
        rw [List.getLast?_append]
        have hs : stripLeadingSlashes (UrlLib.urlparse [] url).path =
            (UrlLib.urlparse [] url).path.dropWhile (fun c => c == '/') := rfl
        rw [← hs, hL]
        rfl
      rw [h2] at hkey
      exact hkey.symm

theorem C8_index_mapping_amended_witness :
    endswith (Scraper.url_to_path "https://sustainability.ucsc.edu/about/".data ".txt".data)
      ("index".data ++ ".txt".data) = true ∧
    Linkweb.insert_path_segments "https://sustainability.ucsc.edu".data = ["index".data] ∧
    (Linkweb.insert_path_segments
      "https://sustainability.ucsc.edu/about/".data).getLast? = some [] := by
  exact ⟨C8_index_mapping_amended.1 _ _ (Or.inr (by decide)),
    C8_index_mapping_amended.2.1 _ (by decide),
    C8_index_mapping_amended.2.2 _ (by decide) (by decide)⟩

/-! ## Crawl-engine lemmas -/

theorem lw_crawlStep_skip {render : Url → Option (List Url)} {st : Linkweb.CrawlState}
    {url : Url} {rest : List Url} (hf : st.frontier = url :: rest)
    (hv : url ∈ st.visited) :
    Linkweb.crawlStep render st = ⟨st.visited, rest, st.edges⟩ := by
  obtain ⟨vis, fr, ed⟩ := st
  dsimp only at hf hv ⊢
  subst hf
  simp only [Linkweb.crawlStep]
  rw [if_pos hv]

theorem lw_crawlStep_process {render : Url → Option (List Url)} {st : Linkweb.CrawlState}
    {url : Url} {rest : List Url} (hf : st.frontier = url :: rest)
    (hv : url ∉ st.visited) :
    Linkweb.crawlStep render st =
      ⟨url :: st.visited,
       ((Linkweb.fetch render url).foldl
         (Linkweb.linkStep (url :: st.visited) url) (st.edges, rest)).2,
       ((Linkweb.fetch render url).foldl
         (Linkweb.linkStep (url :: st.visited) url) (st.edges, rest)).1⟩ := by
  obtain ⟨vis, fr, ed⟩ := st
  dsimp only at hf hv ⊢
  subst hf
  simp only [Linkweb.crawlStep]
  rw [if_neg hv]

theorem sc_crawlStep_skip {render : Url → Option (List Url)} {st : Scraper.CrawlState}
    {url0 : Url} {rest : List Url} (hf : st.frontier = url0 :: rest)
    (hv : Scraper.strip_fragment url0 ∈ st.visited) :
    Scraper.crawlStep render st = ⟨st.visited, rest⟩ := by
  obtain ⟨vis, fr⟩ := st
  dsimp only at hf hv ⊢
  subst hf
  simp only [Scraper.crawlStep]
  rw [if_pos hv]

theorem sc_crawlStep_fail {render : Url → Option (List Url)} {st : Scraper.CrawlState}
    {url0 : Url} {rest : List Url} (hf : st.frontier = url0 :: rest)
    (hv : Scraper.strip_fragment url0 ∉ st.visited)
    (hr : render (Scraper.strip_fragment url0) = none) :
    Scraper.crawlStep render st = ⟨Scraper.strip_fragment url0 :: st.visited, rest⟩ := by
  obtain ⟨vis, fr⟩ := st
  dsimp only at hf hv ⊢
  subst hf
  simp only [Scraper.crawlStep]
  rw [if_neg hv, hr]

theorem sc_crawlStep_success {render : Url → Option (List Url)} {st : Scraper.CrawlState}
    {url0 : Url} {rest links : List Url} (hf : st.frontier = url0 :: rest)
    (hv : Scraper.strip_fragment url0 ∉ st.visited)
    (hr : render (Scraper.strip_fragment url0) = some links) :
    Scraper.crawlStep render st =
      ⟨Scraper.strip_fragment url0 :: st.visited,
       rest ++ (links.map Scraper.strip_fragment).filter
         (fun l => decide (Scraper.is_allowed l ∧
           l ∉ Scraper.strip_fragment url0 :: st.visited))⟩ := by
  obtain ⟨vis, fr⟩ := st
  dsimp only at hf hv ⊢
  subst hf
  simp only [Scraper.crawlStep]
  rw [if_neg hv, hr]

theorem edgeRecorded_edgesAdd_self (e : List (Url × List Url)) (s d : Url) :
    edgeRecorded (Linkweb.edgesAdd e s d) s d = true := by
  induction e with
  | nil => simp [Linkweb.edgesAdd, edgeRecorded]
  | cons x rest ih =>
    rcases x with ⟨k, ds⟩
    rw [Linkweb.edgesAdd]
    by_cases hk : k = s
    · rw [if_pos hk]
      rw [edgeRecorded, List.any_cons]
      subst hk
      by_cases hd : d ∈ ds
      · simp [hd]
      · simp [hd]
    · rw [if_neg hk]
      rw [edgeRecorded, List.any_cons]
      rw [edgeRecorded] at ih
      simp [ih]

theorem edgeRecorded_mono {e : List (Url × List Url)} {s d : Url}
    (h : edgeRecorded e s d = true) (s' d' : Url) :
    edgeRecorded (Linkweb.edgesAdd e s' d') s d = true := by
  induction e with
  | nil => simp [edgeRecorded] at h
  | cons x rest ih =>
    rcases x with ⟨k, ds⟩
    rw [edgeRecorded, List.any_cons] at h
    simp only [Bool.or_eq_true] at h
    rcases h with h1 | h1
    · rw [Bool.and_eq_true, decide_eq_true_eq, decide_eq_true_eq] at h1
      rw [Linkweb.edgesAdd]
      by_cases hk : k = s'
      · rw [if_pos hk]
        rw [edgeRecorded, List.any_cons]
        have hmem : d ∈ (if d' ∈ ds then ds else ds ++ [d']) := by
          by_cases hd' : d' ∈ ds
          · rw [if_pos hd']; exact h1.2
          · rw [if_neg hd']; exact List.mem_append_left _ h1.2
        simp [h1.1, hmem]
      · rw [if_neg hk]
        rw [edgeRecorded, List.any_cons]
        simp [h1.1, h1.2]
    · have hrest : edgeRecorded rest s d = true := h1
      rw [Linkweb.edgesAdd]
      by_cases hk : k = s'
      · rw [if_pos hk]
        rw [edgeRecorded, List.any_cons]
        have h2 : List.any rest
            (fun x => decide (x.1 = s) && decide (d ∈ x.2)) = true := hrest
        simp [h2]
      · rw [if_neg hk]
        rw [edgeRecorded, List.any_cons]
        have h2 : List.any (Linkweb.edgesAdd rest s' d')
            (fun x => decide (x.1 = s) && decide (d ∈ x.2)) = true := ih hrest
        simp [h2]

theorem foldl_linkStep_snd (visited : List Url) (url : Url) (l : List Url)
    (e : List (Url × List Url)) (f : List Url) :
    (l.foldl (Linkweb.linkStep visited url) (e, f)).2 =
      f ++ l.filter (fun d => decide (Linkweb.is_internal d ∧ d ∉ visited)) := by
  induction l generalizing e f with
  | nil => simp
  | cons x t ih =>
    rw [List.foldl_cons, List.filter_cons]
    rw [Linkweb.linkStep]
    by_cases hx : Linkweb.is_internal x ∧ x ∉ visited
    · rw [if_pos hx, if_pos (by simpa using hx)]
      rw [ih]
      simp
    · rw [if_neg hx, if_neg (by simpa using hx)]
      exact ih _ _

theorem foldl_linkStep_fst_pres (visited : List Url) (url : Url) (l : List Url)
    {e : List (Url × List Url)} {f : List Url} {s d : Url}
    (h : edgeRecorded e s d = true) :
    edgeRecorded ((l.foldl (Linkweb.linkStep visited url) (e, f)).1) s d = true := by
  induction l generalizing e f with
  | nil => exact h
  | cons x t ih =>
    rw [List.foldl_cons]
    exact ih (edgeRecorded_mono h url x)

theorem foldl_linkStep_fst_mem (visited : List Url) (url : Url) {l : List Url}
    (e : List (Url × List Url)) (f : List Url) {h0 : Url} (hmem : h0 ∈ l) :
    edgeRecorded ((l.foldl (Linkweb.linkStep visited url) (e, f)).1) url h0 = true := by
  induction l generalizing e f with
  | nil => simp at hmem
  | cons x t ih =>
    rw [List.foldl_cons]
    rcases List.mem_cons.mp hmem with h1 | h1
    · subst h1
      exact foldl_linkStep_fst_pres visited url t
        (edgeRecorded_edgesAdd_self e url h0)
    · exact ih _ _ h1

theorem edgesAdd_keys {P : Url → Prop} {e : List (Url × List Url)}
    (hP : ∀ x ∈ e, P x.1) {s : Url} (hs : P s) (d : Url) :
    ∀ x ∈ Linkweb.edgesAdd e s d, P x.1 := by
  induction e with
  | nil =>
    intro x hx
    rw [Linkweb.edgesAdd] at hx
    rcases List.mem_singleton.mp hx with rfl
    exact hs
  | cons y rest ih =>
    rcases y with ⟨k, ds⟩
    intro x hx
    rw [Linkweb.edgesAdd] at hx
    by_cases hk : k = s
    · rw [if_pos hk] at hx
      rcases List.mem_cons.mp hx with rfl | h1
      · exact hP (k, ds) (List.mem_cons_self _ _)
      · exact hP x (List.mem_cons_of_mem _ h1)
    · rw [if_neg hk] at hx
      rcases List.mem_cons.mp hx with rfl | h1
      · exact hP (k, ds) (List.mem_cons_self _ _)
      · exact ih (fun z hz => hP z (List.mem_cons_of_mem _ hz)) x h1

theorem edgesAdd_vals {e : List (Url × List Url)}
    (hv : ∀ x ∈ e, x.2 ≠ []) (s d : Url) :
    ∀ x ∈ Linkweb.edgesAdd e s d, x.2 ≠ [] := by
  induction e with
  | nil =>
    intro x hx
    rw [Linkweb.edgesAdd] at hx
    rcases List.mem_singleton.mp hx with rfl
    simp
  | cons y rest ih =>
    rcases y with ⟨k, ds⟩
    intro x hx
    rw [Linkweb.edgesAdd] at hx
    by_cases hk : k = s
    · rw [if_pos hk] at hx
      rcases List.mem_cons.mp hx with rfl | h1
      · have hds := hv (k, ds) (List.mem_cons_self _ _)
        by_cases hd : d ∈ ds
        · simpa [hd] using hds
        · simp [hd]
      · exact hv x (List.mem_cons_of_mem _ h1)
    · rw [if_neg hk] at hx
      rcases List.mem_cons.mp hx with rfl | h1
      · exact hv (k, ds) (List.mem_cons_self _ _)
      · exact ih (fun z hz => hv z (List.mem_cons_of_mem _ hz)) x h1

theorem foldl_linkStep_keys {P : Url → Prop} (visited : List Url) {url : Url}
    (l : List Url) {e : List (Url × List Url)} {f : List Url}
    (hP : ∀ x ∈ e, P x.1) (hurl : P url) :
    ∀ x ∈ (l.foldl (Linkweb.linkStep visited url) (e, f)).1, P x.1 := by
  induction l generalizing e f with
  | nil => exact hP
  | cons y t ih =>
    rw [List.foldl_cons]
    exact ih (edgesAdd_keys hP hurl y)

theorem foldl_linkStep_vals (visited : List Url) (url : Url)
    (l : List Url) {e : List (Url × List Url)} {f : List Url}
    (hv : ∀ x ∈ e, x.2 ≠ []) :
    ∀ x ∈ (l.foldl (Linkweb.linkStep visited url) (e, f)).1, x.2 ≠ [] := by
  induction l generalizing e f with
  | nil => exact hv
  | cons y t ih =>
    rw [List.foldl_cons]
    exact ih (edgesAdd_vals hv url y)

theorem lwInv_init : LwInv Linkweb.crawlInit := by
  refine ⟨List.nodup_nil, ?_, ?_, ?_⟩ <;> simp [Linkweb.crawlInit, Linkweb.MAX_PAGES]

theorem lwInv_step {st : Linkweb.CrawlState} (h : LwInv st)
    (hlen : st.visited.length < Linkweb.MAX_PAGES)
    (render : Url → Option (List Url)) :
    LwInv (Linkweb.crawlStep render st) := by
  obtain ⟨hnd, hle, hkeys, hvals⟩ := h
  cases hf : st.frontier with
  | nil =>
    have : Linkweb.crawlStep render st = st := by
      obtain ⟨vis, fr, ed⟩ := st
      dsimp only at hf
      subst hf
      simp [Linkweb.crawlStep]
    rw [this]
    exact ⟨hnd, hle, hkeys, hvals⟩
  | cons url rest =>
    by_cases hv : url ∈ st.visited
    · rw [lw_crawlStep_skip hf hv]
      exact ⟨hnd, hle, hkeys, hvals⟩
    · rw [lw_crawlStep_process hf hv]
      refine ⟨List.nodup_cons.mpr ⟨hv, hnd⟩, by simpa using hlen, ?_, ?_⟩
      · exact foldl_linkStep_keys _ _
          (fun x hx => List.mem_cons_of_mem _ (hkeys x hx))
          (List.mem_cons_self _ _)
      · exact foldl_linkStep_vals _ _ _ hvals

theorem lwInv_loop (render : Url → Option (List Url)) (fuel : Nat)
    {st : Linkweb.CrawlState} (h : LwInv st) :
    LwInv (Linkweb.crawlLoop render fuel st) := by
  induction fuel generalizing st with
  | zero => exact h
  | succ n ih =>
    rw [Linkweb.crawlLoop]
    by_cases hd : Linkweb.crawlDone st = true
    · rw [if_pos hd]; exact h
    · rw [if_neg hd]
      apply ih
      apply lwInv_step h ?_ render
      rw [Linkweb.crawlDone] at hd
      simp only [Bool.or_eq_true, decide_eq_true_eq, not_or] at hd
      omega

theorem scInv_init : ScInv Scraper.crawlInit := by
  exact ⟨List.nodup_nil, by simp [Scraper.crawlInit, Scraper.MAX_PAGES]⟩

theorem scInv_step {st : Scraper.CrawlState} (h : ScInv st)
    (hlen : st.visited.length < Scraper.MAX_PAGES)
    (render : Url → Option (List Url)) :
    ScInv (Scraper.crawlStep render st) := by
  obtain ⟨hnd, hle⟩ := h
  cases hf : st.frontier with
  | nil =>
    have : Scraper.crawlStep render st = st := by
      obtain ⟨vis, fr⟩ := st
      dsimp only at hf
      subst hf
      simp [Scraper.crawlStep]
    rw [this]
    exact ⟨hnd, hle⟩
  | cons url0 rest =>
    by_cases hv : Scraper.strip_fragment url0 ∈ st.visited
    · rw [sc_crawlStep_skip hf hv]
      exact ⟨hnd, hle⟩
    · cases hr : render (Scraper.strip_fragment url0) with
      | none =>
        rw [sc_crawlStep_fail hf hv hr]
        exact ⟨List.nodup_cons.mpr ⟨hv, hnd⟩, by simpa using hlen⟩
      | some links =>
        rw [sc_crawlStep_success hf hv hr]
        exact ⟨List.nodup_cons.mpr ⟨hv, hnd⟩, by simpa using hlen⟩

theorem scInv_loop (render : Url → Option (List Url)) (fuel : Nat)
    {st : Scraper.CrawlState} (h : ScInv st) :
    ScInv (Scraper.crawlLoop render fuel st) := by
  induction fuel generalizing st with
  | zero => exact h
  | succ n ih =>
    rw [Scraper.crawlLoop]
    by_cases hd : Scraper.crawlDone st = true
    · rw [if_pos hd]; exact h
    · rw [if_neg hd]
      apply ih
      apply scInv_step h ?_ render
      rw [Scraper.crawlDone] at hd
      simp only [Bool.or_eq_true, decide_eq_true_eq, not_or] at hd
      omega

/-! ## Claims C1, C2, C9, C10 -/

/-- C1: for every completed crawl (the loop reached its Done configuration,
under any renderer behaviour and any fuel), the visited set — which records
each processed URL exactly when it is processed, so `Nodup` states that every
URL in it was processed exactly once with no duplicates — never exceeds the
configured page-count ceiling, and every EdgeSet key is a member of the
visited set; the scraping variant's visited set satisfies the same
no-duplicates and ceiling guarantees. -/
theorem C1_crawl_invariants (render₁ render₂ : Url → Option (List Url))
    (fuel₁ fuel₂ : Nat)
    (_h₁ : Linkweb.crawlDone (Linkweb.crawlLoop render₁ fuel₁ Linkweb.crawlInit) = true)
    (_h₂ : Scraper.crawlDone (Scraper.crawlLoop render₂ fuel₂ Scraper.crawlInit) = true) :
    (Linkweb.crawlLoop render₁ fuel₁ Linkweb.crawlInit).visited.Nodup ∧
    (Linkweb.crawlLoop render₁ fuel₁ Linkweb.crawlInit).visited.length ≤ Linkweb.MAX_PAGES ∧
    (∀ x ∈ (Linkweb.crawlLoop render₁ fuel₁ Linkweb.crawlInit).edges,
      x.1 ∈ (Linkweb.crawlLoop render₁ fuel₁ Linkweb.crawlInit).visited) ∧
    (Scraper.crawlLoop render₂ fuel₂ Scraper.crawlInit).visited.Nodup ∧
    (Scraper.crawlLoop render₂ fuel₂ Scraper.crawlInit).visited.length ≤ Scraper.MAX_PAGES := by
  have hl := lwInv_loop render₁ fuel₁ lwInv_init
  have hs := scInv_loop render₂ fuel₂ scInv_init
  exact ⟨hl.1, hl.2.1, hl.2.2.1, hs.1, hs.2⟩

theorem C1_crawl_invariants_witness :
    Linkweb.crawlDone (Linkweb.crawlLoop renderNone 2 Linkweb.crawlInit) = true ∧
    Scraper.crawlDone (Scraper.crawlLoop renderNone 2 Scraper.crawlInit) = true ∧
    (Linkweb.crawlLoop renderNone 2 Linkweb.crawlInit).visited.Nodup ∧
    (Linkweb.crawlLoop renderNone 2 Linkweb.crawlInit).visited.length ≤ Linkweb.MAX_PAGES := by
  refine ⟨by decide, by decide, ?_, ?_⟩
  · exact (C1_crawl_invariants renderNone renderNone 2 2 (by decide) (by decide)).1
  · exact (C1_crawl_invariants renderNone renderNone 2 2 (by decide) (by decide)).2.1

/-- C2: in the mapping variant's crawl step on a successfully fetched page,
an edge from the current URL to every normalized destination is recorded
regardless of scope, and the new frontier is the old frontier tail followed
by exactly the normalized destinations that pass the scope filter and are
not yet visited (in discovery order, duplicates tolerated). -/
theorem C2_mapping_step_edges_frontier (render : Url → Option (List Url))
    (st : Linkweb.CrawlState) (url : Url) (rest hs : List Url)
    (hf : st.frontier = url :: rest) (hv : url ∉ st.visited)
    (hr : render url = some hs) :
    (∀ h ∈ hs, edgeRecorded (Linkweb.crawlStep render st).edges url
      (Linkweb.normalise h) = true) ∧
    (Linkweb.crawlStep render st).frontier =
      rest ++ (hs.map Linkweb.normalise).filter
        (fun d => decide (Linkweb.is_internal d ∧ d ∉ url :: st.visited)) := by
  rw [lw_crawlStep_process hf hv]
  have hfetch : Linkweb.fetch render url = hs.map Linkweb.normalise := by
    rw [Linkweb.fetch, hr]
  constructor
  · intro h hh
    rw [hfetch]
    exact foldl_linkStep_fst_mem _ _ _ _ (List.mem_map_of_mem _ hh)
  · rw [hfetch]
    exact foldl_linkStep_snd _ _ _ _ _

theorem C2_mapping_step_edges_frontier_witness :
    edgeRecorded (Linkweb.crawlStep renderTwo Linkweb.crawlInit).edges
      Linkweb.BASE_URL (Linkweb.normalise "https://external.com/a".data) = true ∧
    (Linkweb.crawlStep renderTwo Linkweb.crawlInit).frontier =
      [] ++ (["https://sustainability.ucsc.edu/about".data,
        "https://external.com/a".data].map Linkweb.normalise).filter
        (fun d => decide (Linkweb.is_internal d ∧
          d ∉ Linkweb.BASE_URL :: Linkweb.crawlInit.visited)) := by
  have h := C2_mapping_step_edges_frontier renderTwo Linkweb.crawlInit
    Linkweb.BASE_URL []
    ["https://sustainability.ucsc.edu/about".data, "https://external.com/a".data]
    rfl (by decide) rfl
  exact ⟨h.1 _ (by decide), h.2⟩

/-- C9: the configured base URL (whose parsed path is empty) is rejected by
the scope filter of both variants, even though it is the mapping variant's
crawl seed; consequently neither crawl step can ever put it back into the
frontier: if it is in the frontier after a step, it was there before. -/
theorem C9_base_url_rejected :
    Linkweb.is_internal Linkweb.BASE_URL = false ∧
    Scraper.is_allowed Linkweb.BASE_URL = false ∧
    Linkweb.crawlInit.frontier = [Linkweb.BASE_URL] ∧
    (∀ (render : Url → Option (List Url)) (st : Linkweb.CrawlState),
      Linkweb.BASE_URL ∈ (Linkweb.crawlStep render st).frontier →
      Linkweb.BASE_URL ∈ st.frontier) ∧
    (∀ (render : Url → Option (List Url)) (st : Scraper.CrawlState),
      Linkweb.BASE_URL ∈ (Scraper.crawlStep render st).frontier →
      Linkweb.BASE_URL ∈ st.frontier) := by
  refine ⟨by decide, by decide, rfl, ?_, ?_⟩
  · intro render st h
    cases hf : st.frontier with
    | nil =>
      have hst : Linkweb.crawlStep render st = st := by
        obtain ⟨vis, fr, ed⟩ := st
        dsimp only at hf
        subst hf
        simp [Linkweb.crawlStep]
      rw [hst, hf] at h
      exact h
    | cons url rest =>
      by_cases hv : url ∈ st.visited
      · rw [lw_crawlStep_skip hf hv] at h
        exact List.mem_cons_of_mem _ h
      · rw [lw_crawlStep_process hf hv] at h
        rw [show (⟨url :: st.visited,
            ((Linkweb.fetch render url).foldl
              (Linkweb.linkStep (url :: st.visited) url) (st.edges, rest)).2,
            ((Linkweb.fetch render url).foldl
              (Linkweb.linkStep (url :: st.visited) url) (st.edges, rest)).1⟩ :
            Linkweb.CrawlState).frontier =
          ((Linkweb.fetch render url).foldl
            (Linkweb.linkStep (url :: st.visited) url) (st.edges, rest)).2 from rfl] at h
        rw [foldl_linkStep_snd] at h
        rcases List.mem_append.mp h with h1 | h1
        · exact List.mem_cons_of_mem _ h1
        · have := (List.mem_filter.mp h1).2
          rw [decide_eq_true_eq] at this
          have hbase : Linkweb.is_internal Linkweb.BASE_URL = true := this.1
          have : Linkweb.is_internal Linkweb.BASE_URL = false := by decide
          rw [this] at hbase
          cases hbase
  · intro render st h
    cases hf : st.frontier with
    | nil =>
      have hst : Scraper.crawlStep render st = st := by
        obtain ⟨vis, fr⟩ := st
        dsimp only at hf
        subst hf
        simp [Scraper.crawlStep]
      rw [hst, hf] at h
      exact h
    | cons url0 rest =>
      by_cases hv : Scraper.strip_fragment url0 ∈ st.visited
      · rw [sc_crawlStep_skip hf hv] at h
        exact List.mem_cons_of_mem _ h
      · cases hr : render (Scraper.strip_fragment url0) with
        | none =>
          rw [sc_crawlStep_fail hf hv hr] at h
          exact List.mem_cons_of_mem _ h
        | some links =>
          rw [sc_crawlStep_success hf hv hr] at h
          have h' : Linkweb.BASE_URL ∈ rest ++ (links.map Scraper.strip_fragment).filter
              (fun l => decide (Scraper.is_allowed l ∧
                l ∉ Scraper.strip_fragment url0 :: st.visited)) := h
          rcases List.mem_append.mp h' with h1 | h1
          · exact List.mem_cons_of_mem _ h1
          · have := (List.mem_filter.mp h1).2
            rw [decide_eq_true_eq] at this
            have hbase : Scraper.is_allowed Linkweb.BASE_URL = true := this.1
            have hfalse : Scraper.is_allowed Linkweb.BASE_URL = false := by decide
            rw [hfalse] at hbase
            cases hbase

theorem C9_base_url_rejected_witness :
    (Linkweb.BASE_URL ∈ (Linkweb.crawlStep renderNone c9LwState).frontier ∧
      Linkweb.BASE_URL ∈ c9LwState.frontier) ∧
    (Linkweb.BASE_URL ∈ (Scraper.crawlStep renderNone c9ScState).frontier ∧
      Linkweb.BASE_URL ∈ c9ScState.frontier) := by
  exact ⟨⟨by decide, C9_base_url_rejected.2.2.2.1 renderNone c9LwState (by decide)⟩,
    ⟨by decide, C9_base_url_rejected.2.2.2.2 renderNone c9ScState (by decide)⟩⟩

/-- C10: a URL whose fetch fails contributes no key to the EdgeSet (the step
leaves the EdgeSet untouched), and in every final EdgeSet of a completed
crawl every key maps to a non-empty destination list (a key only ever comes
into existence together with its first edge). -/
theorem C10_failed_fetch_empty_edges (render : Url → Option (List Url)) :
    (∀ (st : Linkweb.CrawlState) (url : Url) (rest : List Url),
      st.frontier = url :: rest → url ∉ st.visited → render url = none →
      (Linkweb.crawlStep render st).edges = st.edges) ∧
    (∀ fuel : Nat,
      Linkweb.crawlDone (Linkweb.crawlLoop render fuel Linkweb.crawlInit) = true →
      ∀ x ∈ (Linkweb.crawlLoop render fuel Linkweb.crawlInit).edges, x.2 ≠ []) := by
  constructor
  · intro st url rest hf hv hr
    rw [lw_crawlStep_process hf hv]
    have hfetch : Linkweb.fetch render url = [] := by
      rw [Linkweb.fetch, hr]
    rw [hfetch]
    rfl
  · intro fuel _ x hx
    exact (lwInv_loop render fuel lwInv_init).2.2.2 x hx

theorem C10_failed_fetch_empty_edges_witness :
    c10State.frontier = Linkweb.BASE_URL :: [] ∧
    Linkweb.BASE_URL ∉ c10State.visited ∧
    renderNone Linkweb.BASE_URL = none ∧
    (Linkweb.crawlStep renderNone c10State).edges = c10State.edges ∧
    Linkweb.crawlDone (Linkweb.crawlLoop renderNone 2 Linkweb.crawlInit) = true ∧
    (∀ x ∈ (Linkweb.crawlLoop renderNone 2 Linkweb.crawlInit).edges, x.2 ≠ []) := by
  refine ⟨rfl, by decide, rfl, ?_, by decide, ?_⟩
  · exact (C10_failed_fetch_empty_edges renderNone).1 c10State Linkweb.BASE_URL []
      rfl (by decide) rfl
  · exact (C10_failed_fetch_empty_edges renderNone).2 2 (by decide)

/-! ## Normalisation analysis (C3): reformulation and basic lemmas -/

theorem splitScheme_eq (dflt u : List Char) :
    UrlLib.splitScheme dflt u =
      if !(u.dropWhile (fun c => c != ':')).isEmpty &&
          !(u.takeWhile (fun c => c != ':')).isEmpty &&
          ((u.takeWhile (fun c => c != ':')).take 1).all Char.isAlpha &&
          ((u.takeWhile (fun c => c != ':')).drop 1).all UrlLib.isSchemeChar then
        (pyLower (u.takeWhile (fun c => c != ':')),
         (u.dropWhile (fun c => c != ':')).drop 1)
      else (dflt, u) := rfl

theorem urlsplitClean_eq (dflt u : List Char) :
    UrlLib.urlsplitClean dflt u =
      ⟨(UrlLib.splitScheme dflt u).1,
       (UrlLib.splitNetloc (UrlLib.splitScheme dflt u).2).1,
       (UrlLib.splitQuery
         (UrlLib.splitFragment (UrlLib.splitNetloc (UrlLib.splitScheme dflt u).2).2).1).1,
       (UrlLib.splitQuery
         (UrlLib.splitFragment (UrlLib.splitNetloc (UrlLib.splitScheme dflt u).2).2).1).2,
       (UrlLib.splitFragment (UrlLib.splitNetloc (UrlLib.splitScheme dflt u).2).2).2⟩ := rfl

theorem urlparse_eq (dflt u : List Char) :
    UrlLib.urlparse dflt u =
      if (UrlLib.urlsplit dflt u).scheme ∈ UrlLib.uses_params ∧
          ';' ∈ (UrlLib.urlsplit dflt u).path then
        ⟨(UrlLib.urlsplit dflt u).scheme, (UrlLib.urlsplit dflt u).netloc,
         (UrlLib.splitparams (UrlLib.urlsplit dflt u).path).1,
         (UrlLib.splitparams (UrlLib.urlsplit dflt u).path).2,
         (UrlLib.urlsplit dflt u).query, (UrlLib.urlsplit dflt u).fragment⟩
      else
        ⟨(UrlLib.urlsplit dflt u).scheme, (UrlLib.urlsplit dflt u).netloc,
         (UrlLib.urlsplit dflt u).path, [], (UrlLib.urlsplit dflt u).query,
         (UrlLib.urlsplit dflt u).fragment⟩ := rfl

theorem urlunsplit_eq (scheme netloc path query fragment : List Char) :
    UrlLib.urlunsplit scheme netloc path query fragment =
      (let u1 :=
        if !netloc.isEmpty || (!path.isEmpty && startswith path "//".data) then
          "//".data ++ netloc ++
            (if !path.isEmpty && !startswith path "/".data then '/' :: path else path)
        else path
      let u2 := if !scheme.isEmpty then scheme ++ ':' :: u1 else u1
      let u3 := if !query.isEmpty then u2 ++ '?' :: query else u2
      if !fragment.isEmpty then u3 ++ '#' :: fragment else u3) := rfl

theorem urljoin_eq (base url : List Char) :
    UrlLib.urljoin base url =
      if base = [] then url
      else if url = [] then base
      else if (UrlLib.urlparse (UrlLib.urlparse [] base).scheme url).scheme ≠
              (UrlLib.urlparse [] base).scheme ∨
            (UrlLib.urlparse (UrlLib.urlparse [] base).scheme url).scheme ∉
              UrlLib.uses_relative then url
      else if (UrlLib.urlparse (UrlLib.urlparse [] base).scheme url).scheme ∈
              UrlLib.uses_netloc ∧
            (UrlLib.urlparse (UrlLib.urlparse [] base).scheme url).netloc ≠ [] then
        UrlLib.urlunparse
          (UrlLib.urlparse (UrlLib.urlparse [] base).scheme url).scheme
          (UrlLib.urlparse (UrlLib.urlparse [] base).scheme url).netloc
          (UrlLib.urlparse (UrlLib.urlparse [] base).scheme url).path
          (UrlLib.urlparse (UrlLib.urlparse [] base).scheme url).params
          (UrlLib.urlparse (UrlLib.urlparse [] base).scheme url).query
          (UrlLib.urlparse (UrlLib.urlparse [] base).scheme url).fragment
      else UrlLib.urljoinRelative base url := rfl

theorem bne_true_of_ne {c d : Char} (h : c ≠ d) : (c != d) = true :=
  bne_iff_ne.mpr h

theorem takeWhile_head? {p : Char → Bool} {l : List Char} {c : Char}
    (h : (l.takeWhile p).head? = some c) : l.head? = some c := by
  cases l with
  | nil => simp at h
  | cons d t =>
    rw [List.takeWhile_cons] at h
    by_cases hd : p d
    · rw [if_pos hd] at h
      simpa using h
    · simp [hd] at h

theorem head?_append_left {l : List Char} (r : List Char) {c : Char}
    (h : l.head? = some c) : (l ++ r).head? = some c := by
  cases l with
  | nil => simp at h
  | cons d t => simpa using h

theorem startswith_single_head {x : List Char} {c : Char}
    (h : startswith x [c] = true) : x.head? = some c := by
  cases x with
  | nil => simp [startswith] at h
  | cons d t =>
    rw [startswith] at h
    by_cases hdc : d = c
    · rw [hdc]; rfl
    · simp [hdc] at h

theorem mem_of_mem_dropWhile {p : Char → Bool} {l : List Char} {c : Char}
    (h : c ∈ l.dropWhile p) : c ∈ l := (List.dropWhile_sublist p).subset h

theorem mem_of_mem_takeWhile' {p : Char → Bool} {l : List Char} {c : Char}
    (h : c ∈ l.takeWhile p) : c ∈ l := (List.takeWhile_sublist p).subset h

theorem ne_of_mem_takeWhile_bne {d : Char} {l : List Char} {c : Char}
    (h : c ∈ l.takeWhile (fun x => x != d)) : c ≠ d := by
  have := (mem_takeWhile_both h).2
  exact bne_iff_ne.mp this

/-! ## Canonical parses -/

theorem splitScheme_canon (dflt S T : List Char) (hne : S ≠ [])
    (hcolon : ∀ c ∈ S, c ≠ ':')
    (halpha : (S.take 1).all Char.isAlpha = true)
    (hsch : (S.drop 1).all UrlLib.isSchemeChar = true) :
    UrlLib.splitScheme dflt (S ++ ':' :: T) = (pyLower S, T) := by
  have h1 : (S ++ ':' :: T).takeWhile (fun c => c != ':') = S := by
    rw [takeWhile_append_all (fun c hc => bne_true_of_ne (hcolon c hc))]
    simp [List.takeWhile_cons]
  have h2 : (S ++ ':' :: T).dropWhile (fun c => c != ':') = ':' :: T := by
    rw [dropWhile_append_all (fun c hc => bne_true_of_ne (hcolon c hc))]
    simp [List.dropWhile_cons]
  rw [splitScheme_eq, h1, h2]
  rw [if_pos]
  · simp
  · have hS : S.isEmpty = false := by
      cases S
      · exact absurd rfl hne
      · rfl
    have hsch' : ∀ x ∈ S.tail, UrlLib.isSchemeChar x = true := by
      rw [← List.drop_one]
      exact List.all_eq_true.mp hsch
    simp [hS, halpha]
    exact hsch'

theorem splitNetloc_canon (R : List Char) (hR : R.head? = some '/') :
    UrlLib.splitNetloc ('/' :: '/' :: (NETLOC ++ R)) = (NETLOC, R) := by
  obtain ⟨R', rfl⟩ : ∃ R', R = '/' :: R' := by
    cases R with
    | nil => simp at hR
    | cons c t =>
      simp only [List.head?_cons, Option.some.injEq] at hR
      exact ⟨t, by rw [hR]⟩
  have hNET : ∀ c ∈ NETLOC, UrlLib.notNetlocDelim c = true := by decide
  rw [UrlLib.splitNetloc]
  rw [if_pos (by simp [startswith])]
  have hdrop : ('/' :: '/' :: (NETLOC ++ '/' :: R')).drop 2 = NETLOC ++ '/' :: R' := rfl
  rw [hdrop]
  rw [takeWhile_append_all hNET, dropWhile_append_all hNET]
  have hfail : UrlLib.notNetlocDelim '/' = false := by decide
  rw [List.takeWhile_cons, if_neg (by simp [hfail]), List.dropWhile_cons,
    if_neg (by simp [hfail])]
  simp

theorem urlsplitClean_canon (dflt S R : List Char) (hne : S ≠ [])
    (hcolon : ∀ c ∈ S, c ≠ ':')
    (halpha : (S.take 1).all Char.isAlpha = true)
    (hsch : (S.drop 1).all UrlLib.isSchemeChar = true)
    (hR : R.head? = some '/') :
    UrlLib.urlsplitClean dflt (S ++ ':' :: '/' :: '/' :: (NETLOC ++ R)) =
      ⟨pyLower S, NETLOC, rawPath R, rawQuery R, rawFragment R⟩ := by
  rw [urlsplitClean_eq]
  rw [splitScheme_canon dflt S _ hne hcolon halpha hsch]
  dsimp only
  rw [splitNetloc_canon R hR]
  dsimp only
  rw [UrlLib.splitFragment, UrlLib.splitQuery]
  rfl

theorem urlparse_canon (dflt u S R : List Char)
    (hu : UrlLib.removeUnsafe u = S ++ ':' :: '/' :: '/' :: (NETLOC ++ R))
    (hne : S ≠ []) (hcolon : ∀ c ∈ S, c ≠ ':')
    (halpha : (S.take 1).all Char.isAlpha = true)
    (hsch : (S.drop 1).all UrlLib.isSchemeChar = true)
    (hR : R.head? = some '/')
    (hlow : pyLower S = "http".data ∨ pyLower S = "https".data) :
    UrlLib.urlparse dflt u =
      ⟨pyLower S, NETLOC, parsePath (rawPath R), parseParams (rawPath R),
       rawQuery R, rawFragment R⟩ := by
  have hsplit : UrlLib.urlsplit dflt u =
      ⟨pyLower S, NETLOC, rawPath R, rawQuery R, rawFragment R⟩ := by
    rw [UrlLib.urlsplit, hu]
    exact urlsplitClean_canon _ S R hne hcolon halpha hsch hR
  rw [urlparse_eq, hsplit]
  have hup : pyLower S ∈ UrlLib.uses_params := by
    rcases hlow with h | h <;> rw [h] <;> decide
  by_cases hsemi : ';' ∈ rawPath R
  · rw [if_pos ⟨hup, hsemi⟩]
    rw [parsePath, parseParams, if_pos hsemi, if_pos hsemi]
  · rw [if_neg (fun hc => hsemi hc.2)]
    rw [parsePath, parseParams, if_neg hsemi, if_neg hsemi]

/-! ## splitparams lemmas -/

theorem splitparams_eq (x : List Char) :
    UrlLib.splitparams x =
      if '/' ∈ x then
        if ';' ∈ lastSeg x then
          ((x.reverse.dropWhile (fun c => c != '/')).reverse ++
            (lastSeg x).takeWhile (fun c => c != ';'),
           ((lastSeg x).dropWhile (fun c => c != ';')).drop 1)
        else (x, [])
      else
        (x.takeWhile (fun c => c != ';'), (x.dropWhile (fun c => c != ';')).drop 1) := rfl

theorem reverse_decomp (p : Char → Bool) (x : List Char) :
    x = (x.reverse.dropWhile p).reverse ++ (x.reverse.takeWhile p).reverse := by
  conv_lhs => rw [← List.reverse_reverse x,
    ← List.takeWhile_append_dropWhile p x.reverse]
  rw [List.reverse_append]

theorem stem_lastSeg_decomp (x : List Char) :
    x = (x.reverse.dropWhile (fun c => c != '/')).reverse ++ lastSeg x :=
  reverse_decomp _ x

theorem lastSeg_no_slash (x : List Char) : ∀ c ∈ lastSeg x, c ≠ '/' := by
  intro c hc
  rw [lastSeg, List.mem_reverse] at hc
  exact ne_of_mem_takeWhile_bne hc

theorem stem_ne_nil {x : List Char} (h : '/' ∈ x) :
    (x.reverse.dropWhile (fun c => c != '/')).reverse ≠ [] := by
  intro h0
  rw [List.reverse_eq_nil_iff] at h0
  have := List.dropWhile_eq_nil_iff.mp h0 '/' (List.mem_reverse.mpr h)
  simp at this

theorem splitparams_fst_head {x : List Char} {c : Char}
    (h : ((UrlLib.splitparams x).1).head? = some c) : x.head? = some c := by
  rw [splitparams_eq] at h
  by_cases h1 : '/' ∈ x
  · rw [if_pos h1] at h
    by_cases h2 : ';' ∈ lastSeg x
    · rw [if_pos h2] at h
      dsimp only at h
      cases hstem : (x.reverse.dropWhile (fun c => c != '/')).reverse with
      | nil => exact absurd hstem (stem_ne_nil h1)
      | cons d t =>
        rw [hstem] at h
        simp only [List.cons_append, List.head?_cons] at h
        conv_lhs => rw [stem_lastSeg_decomp x]
        rw [hstem]
        simpa using h
    · rw [if_neg h2] at h
      exact h
  · rw [if_neg h1] at h
    dsimp only at h
    exact takeWhile_head? h

theorem parsePath_head {x : List Char} {c : Char}
    (h : (parsePath x).head? = some c) : x.head? = some c := by
  rw [parsePath] at h
  by_cases hs : ';' ∈ x
  · rw [if_pos hs] at h
    exact splitparams_fst_head h
  · rwa [if_neg hs] at h

theorem splitparams_fst_subset {x : List Char} : ∀ c ∈ (UrlLib.splitparams x).1, c ∈ x := by
  intro c hc
  rw [splitparams_eq] at hc
  by_cases h1 : '/' ∈ x
  · rw [if_pos h1] at hc
    by_cases h2 : ';' ∈ lastSeg x
    · rw [if_pos h2] at hc
      dsimp only at hc
      rcases List.mem_append.mp hc with h3 | h3
      · conv_rhs at h3 => skip
        rw [List.mem_reverse] at h3
        have := mem_of_mem_dropWhile h3
        rwa [List.mem_reverse] at this
      · have := mem_of_mem_takeWhile' h3
        rw [lastSeg, List.mem_reverse] at this
        have := mem_of_mem_takeWhile' this
        rwa [List.mem_reverse] at this
    · rw [if_neg h2] at hc
      exact hc
  · rw [if_neg h1] at hc
    exact mem_of_mem_takeWhile' hc

theorem splitparams_snd_subset {x : List Char} : ∀ c ∈ (UrlLib.splitparams x).2, c ∈ x := by
  intro c hc
  rw [splitparams_eq] at hc
  by_cases h1 : '/' ∈ x
  · rw [if_pos h1] at hc
    by_cases h2 : ';' ∈ lastSeg x
    · rw [if_pos h2] at hc
      dsimp only at hc
      have := mem_of_mem_dropWhile (List.drop_subset _ _ hc)
      rw [lastSeg, List.mem_reverse] at this
      have := mem_of_mem_takeWhile' this
      rwa [List.mem_reverse] at this
    · rw [if_neg h2] at hc
      simp at hc
  · rw [if_neg h1] at hc
    exact mem_of_mem_dropWhile (List.drop_subset _ _ hc)

theorem splitparams_snd_no_slash {x : List Char} :
    ∀ c ∈ (UrlLib.splitparams x).2, c ≠ '/' := by
  intro c hc
  rw [splitparams_eq] at hc
  by_cases h1 : '/' ∈ x
  · rw [if_pos h1] at hc
    by_cases h2 : ';' ∈ lastSeg x
    · rw [if_pos h2] at hc
      dsimp only at hc
      exact lastSeg_no_slash x c (mem_of_mem_dropWhile (List.drop_subset _ _ hc))
    · rw [if_neg h2] at hc
      simp at hc
  · rw [if_neg h1] at hc
    intro hc'
    subst hc'
    exact h1 (splitparams_snd_subset (x := x) '/' (by rw [splitparams_eq, if_neg h1]; exact hc))

theorem lastSeg_stem_append (x tw : List Char) (h1 : '/' ∈ x)
    (htw : ∀ c ∈ tw, c ≠ '/') :
    lastSeg ((x.reverse.dropWhile (fun c => c != '/')).reverse ++ tw) = tw := by
  rw [lastSeg, List.reverse_append, List.reverse_reverse]
  rw [takeWhile_append_all (fun c hc => bne_true_of_ne (htw c (List.mem_reverse.mp hc)))]
  have hne : x.reverse.dropWhile (fun c => c != '/') ≠ [] := by
    intro h0
    have := List.dropWhile_eq_nil_iff.mp h0 '/' (List.mem_reverse.mpr h1)
    simp at this
  cases hd : x.reverse.dropWhile (fun c => c != '/') with
  | nil => exact absurd hd hne
  | cons c t =>
    have hc := dropWhile_head_false hd
    rw [List.takeWhile_cons, if_neg (by simp [hc])]
    simp

theorem lastSeg_fst_no_semi {x : List Char} (h1 : '/' ∈ x) :
    ∀ c ∈ lastSeg ((UrlLib.splitparams x).1), c ≠ ';' := by
  rw [splitparams_eq, if_pos h1]
  by_cases h2 : ';' ∈ lastSeg x
  · rw [if_pos h2]
    dsimp only
    intro c hc
    rw [lastSeg_stem_append x _ h1
      (fun d hd => lastSeg_no_slash x d (mem_of_mem_takeWhile' hd))] at hc
    exact ne_of_mem_takeWhile_bne hc
  · rw [if_neg h2]
    dsimp only
    intro c hc hceq
    subst hceq
    exact h2 hc

theorem splitparams_noop {y : List Char} (h1 : '/' ∈ y)
    (h2 : ∀ c ∈ lastSeg y, c ≠ ';') :
    UrlLib.splitparams y = (y, []) := by
  rw [splitparams_eq, if_pos h1, if_neg (fun hc => h2 ';' hc rfl)]

theorem splitparams_roundtrip {y z : List Char} (h1 : '/' ∈ y)
    (h2 : ∀ c ∈ lastSeg y, c ≠ ';') (hz : ∀ c ∈ z, c ≠ '/') :
    UrlLib.splitparams (y ++ ';' :: z) = (y, z) := by
  have hrev : (y ++ ';' :: z).reverse = z.reverse ++ ';' :: y.reverse := by
    rw [List.reverse_append]
    simp
  have hls : lastSeg (y ++ ';' :: z) = lastSeg y ++ ';' :: z := by
    rw [lastSeg, hrev]
    rw [takeWhile_append_all (fun c hc => bne_true_of_ne (hz c (List.mem_reverse.mp hc)))]
    rw [List.takeWhile_cons, if_pos (by simp)]
    rw [List.reverse_append, List.reverse_cons, List.reverse_reverse]
    rw [lastSeg, List.append_assoc]
    rfl
  rw [splitparams_eq, if_pos (List.mem_append_left _ h1)]
  rw [hls, if_pos (by simp)]
  have htw : (lastSeg y ++ ';' :: z).takeWhile (fun c => c != ';') = lastSeg y := by
    rw [takeWhile_append_all (fun c hc => bne_true_of_ne (h2 c hc))]
    rw [List.takeWhile_cons, if_neg (by simp)]
    simp
  have hdw : (lastSeg y ++ ';' :: z).dropWhile (fun c => c != ';') = ';' :: z := by
    rw [dropWhile_append_all (fun c hc => bne_true_of_ne (h2 c hc))]
    rw [List.dropWhile_cons, if_neg (by simp)]
  have hstem : ((y ++ ';' :: z).reverse.dropWhile (fun c => c != '/')).reverse =
      (y.reverse.dropWhile (fun c => c != '/')).reverse := by
    rw [hrev]
    rw [dropWhile_append_all (fun c hc => bne_true_of_ne (hz c (List.mem_reverse.mp hc)))]
    rw [List.dropWhile_cons, if_pos (by simp)]
  rw [htw, hdw, hstem]
  rw [Prod.mk.injEq]
  constructor
  · conv_rhs => rw [stem_lastSeg_decomp y]
  · rfl

/-! ## Parse inversion lemmas -/

theorem urlparse_scheme (dflt u : List Char) :
    (UrlLib.urlparse dflt u).scheme = (UrlLib.urlsplit dflt u).scheme := by
  rw [urlparse_eq]
  split <;> rfl

theorem urlparse_netloc (dflt u : List Char) :
    (UrlLib.urlparse dflt u).netloc = (UrlLib.urlsplit dflt u).netloc := by
  rw [urlparse_eq]
  split <;> rfl

theorem urlparse_path_of_params (dflt u : List Char)
    (hup : (UrlLib.urlsplit dflt u).scheme ∈ UrlLib.uses_params) :
    (UrlLib.urlparse dflt u).path = parsePath (UrlLib.urlsplit dflt u).path := by
  rw [urlparse_eq, parsePath]
  by_cases hsemi : ';' ∈ (UrlLib.urlsplit dflt u).path
  · rw [if_pos ⟨hup, hsemi⟩, if_pos hsemi]
  · rw [if_neg (fun hc => hsemi hc.2), if_neg hsemi]

theorem splitScheme_inv {u : List Char} (hs : (UrlLib.splitScheme [] u).1 ≠ []) :
    u = u.takeWhile (fun c => c != ':') ++ ':' :: (UrlLib.splitScheme [] u).2 ∧
    (UrlLib.splitScheme [] u).1 = pyLower (u.takeWhile (fun c => c != ':')) ∧
    u.takeWhile (fun c => c != ':') ≠ [] ∧
    (∀ c ∈ u.takeWhile (fun c => c != ':'), c ≠ ':') ∧
    ((u.takeWhile (fun c => c != ':')).take 1).all Char.isAlpha = true ∧
    ((u.takeWhile (fun c => c != ':')).drop 1).all UrlLib.isSchemeChar = true := by
  by_cases hcond : (!(u.dropWhile (fun c => c != ':')).isEmpty &&
      !(u.takeWhile (fun c => c != ':')).isEmpty &&
      ((u.takeWhile (fun c => c != ':')).take 1).all Char.isAlpha &&
      ((u.takeWhile (fun c => c != ':')).drop 1).all UrlLib.isSchemeChar) = true
  · have heq : UrlLib.splitScheme [] u =
        (pyLower (u.takeWhile (fun c => c != ':')),
         (u.dropWhile (fun c => c != ':')).drop 1) := by
      rw [splitScheme_eq, if_pos hcond]
    simp only [Bool.and_eq_true] at hcond
    obtain ⟨⟨⟨hpost, hpre⟩, hal⟩, hsc⟩ := hcond
    have hpre' : u.takeWhile (fun c => c != ':') ≠ [] := by
      intro h0
      rw [h0] at hpre
      simp at hpre
    have hpost' : u.dropWhile (fun c => c != ':') ≠ [] := by
      intro h0
      rw [h0] at hpost
      simp at hpost
    obtain ⟨t, ht⟩ : ∃ t, u.dropWhile (fun c => c != ':') = ':' :: t := by
      cases hd : u.dropWhile (fun c => c != ':') with
      | nil => exact absurd hd hpost'
      | cons c t =>
        have hcf := dropWhile_head_false hd
        have : c = ':' := by simpa using hcf
        exact ⟨t, by rw [this]⟩
    refine ⟨?_, ?_, hpre', fun c hc => ne_of_mem_takeWhile_bne hc, hal, hsc⟩
    · rw [heq]
      dsimp only
      rw [ht]
      rw [show (':' :: t).drop 1 = t from rfl]
      conv_lhs => rw [← List.takeWhile_append_dropWhile (fun c => c != ':') u, ht]
    · rw [heq]
  · exfalso
    apply hs
    rw [splitScheme_eq, if_neg hcond]

theorem splitNetloc_inv {u : List Char} (hnl : (UrlLib.splitNetloc u).1 ≠ []) :
    u = '/' :: '/' :: ((UrlLib.splitNetloc u).1 ++ (UrlLib.splitNetloc u).2) ∧
    (∀ c ∈ (UrlLib.splitNetloc u).1, UrlLib.notNetlocDelim c = true) := by
  by_cases hsw : startswith u "//".data = true
  · have heq : UrlLib.splitNetloc u =
        ((u.drop 2).takeWhile UrlLib.notNetlocDelim,
         (u.drop 2).dropWhile UrlLib.notNetlocDelim) := by
      rw [UrlLib.splitNetloc, if_pos hsw]
    have hu2 : u = '/' :: '/' :: u.drop 2 := by
      have h := startswith_true_eq hsw
      simpa using h
    constructor
    · rw [heq]
      dsimp only
      rw [List.takeWhile_append_dropWhile]
      exact hu2
    · intro c hc
      rw [heq] at hc
      exact (mem_takeWhile_both hc).2
  · exfalso
    apply hnl
    rw [UrlLib.splitNetloc, if_neg hsw]

theorem is_internal_inversion {u : List Char} (H : Linkweb.is_internal u = true) :
    ∃ S R,
      UrlLib.removeUnsafe (Linkweb.strip_fragment u) =
        S ++ ':' :: '/' :: '/' :: (NETLOC ++ R) ∧
      S ≠ [] ∧ (∀ c ∈ S, c ≠ ':') ∧
      (S.take 1).all Char.isAlpha = true ∧
      (S.drop 1).all UrlLib.isSchemeChar = true ∧
      (pyLower S = "http".data ∨ pyLower S = "https".data) ∧
      R.head? = some '/' ∧
      (parsePath (rawPath R)).head? = some '/' := by
  rw [Linkweb.is_internal] at H
  simp only [Bool.and_eq_true, decide_eq_true_eq] at H
  obtain ⟨⟨⟨hscheme, hnet⟩, hpath⟩, _hskip⟩ := H
  set v := Linkweb.strip_fragment u with hv
  set w := UrlLib.removeUnsafe v with hwdef
  have hsplit_w : UrlLib.urlsplit [] v = UrlLib.urlsplitClean [] w := rfl
  have hs_scheme : (UrlLib.urlparse [] v).scheme = (UrlLib.splitScheme [] w).1 := by
    rw [urlparse_scheme, hsplit_w, urlsplitClean_eq]
  have hscheme_ne : (UrlLib.splitScheme [] w).1 ≠ [] := by
    rw [← hs_scheme]
    rcases hscheme with h | h <;> rw [h] <;> decide
  obtain ⟨hw_eq, hs_val, hSne, hScolon, hSalpha, hSsch⟩ := splitScheme_inv hscheme_ne
  set S := w.takeWhile (fun c => c != ':') with hSdef
  set rest1 := (UrlLib.splitScheme [] w).2 with hrest1
  have hnet_val : (UrlLib.splitNetloc rest1).1 = NETLOC := by
    have h1 : (UrlLib.urlparse [] v).netloc = (UrlLib.splitNetloc rest1).1 := by
      rw [urlparse_netloc, hsplit_w, urlsplitClean_eq]
    have h3 : (UrlLib.urlparse [] Linkweb.BASE_URL).netloc = NETLOC := by decide
    rw [← h1, hnet, h3]
  have hnl_ne : (UrlLib.splitNetloc rest1).1 ≠ [] := by
    rw [hnet_val]
    decide
  obtain ⟨hrest1_eq, _hnlmem⟩ := splitNetloc_inv hnl_ne
  set R := (UrlLib.splitNetloc rest1).2 with hRdef
  have hup : (UrlLib.urlsplit [] v).scheme ∈ UrlLib.uses_params := by
    have : (UrlLib.urlsplit [] v).scheme = (UrlLib.splitScheme [] w).1 := by
      rw [hsplit_w, urlsplitClean_eq]
    rw [this, ← hs_scheme]
    rcases hscheme with h | h <;> rw [h] <;> decide
  have hs_path : (UrlLib.urlsplit [] v).path = rawPath R := by
    rw [hsplit_w, urlsplitClean_eq]
    rfl
  have hpath_head : (parsePath (rawPath R)).head? = some '/' := by
    have hstart : startswith (UrlLib.urlparse [] v).path ['/'] = true := hpath
    have h1 := startswith_single_head hstart
    rw [urlparse_path_of_params [] v hup, hs_path] at h1
    exact h1
  have hR_head : R.head? = some '/' := by
    have h1 := parsePath_head hpath_head
    rw [rawPath] at h1
    exact takeWhile_head? (takeWhile_head? h1)
  refine ⟨S, R, ?_, hSne, hScolon, hSalpha, hSsch, ?_, hR_head, hpath_head⟩
  · rw [hw_eq, hrest1_eq, hnet_val]
  · rw [← hs_val, ← hs_scheme]
    exact hscheme

/-! ## Character-class facts and decompositions -/

theorem forall_mem_append {P : Char → Prop} {A B : List Char}
    (hA : ∀ c ∈ A, P c) (hB : ∀ c ∈ B, P c) : ∀ c ∈ A ++ B, P c := by
  intro c hc
  rcases List.mem_append.mp hc with h | h
  · exact hA c h
  · exact hB c h

theorem forall_mem_cons {P : Char → Prop} {c0 : Char} {B : List Char}
    (h0 : P c0) (hB : ∀ c ∈ B, P c) : ∀ c ∈ c0 :: B, P c := by
  intro c hc
  rcases List.mem_cons.mp hc with rfl | h
  · exact h0
  · exact hB c h

theorem forall_mem_ite {P : Char → Prop} {cond : Prop} [Decidable cond]
    {A B : List Char} (hA : ∀ c ∈ A, P c) (hB : ∀ c ∈ B, P c) :
    ∀ c ∈ (if cond then A else B), P c := by
  split
  · exact hA
  · exact hB

theorem removeUnsafe_mem {x : List Char} {c : Char}
    (h : c ∈ UrlLib.removeUnsafe x) : UrlLib.unsafeByte c = false := by
  have := List.of_mem_filter h
  simpa using this

theorem strip_no_hash {u : List Char} :
    ∀ c ∈ UrlLib.removeUnsafe (Linkweb.strip_fragment u), c ≠ '#' := by
  intro c hc
  have h1 : c ∈ Linkweb.strip_fragment u := List.mem_of_mem_filter hc
  exact ne_of_mem_takeWhile_bne h1

theorem removeUnsafe_decomp (u : List Char) :
    ∃ f, UrlLib.removeUnsafe u = UrlLib.removeUnsafe (Linkweb.strip_fragment u) ++ f ∧
      (f = [] ∨ f.head? = some '#') := by
  have hu : u = Linkweb.strip_fragment u ++ u.dropWhile (fun c => c != '#') := by
    rw [Linkweb.strip_fragment, List.takeWhile_append_dropWhile]
  cases hd : u.dropWhile (fun c => c != '#') with
  | nil =>
    refine ⟨[], ?_, Or.inl rfl⟩
    conv_lhs => rw [hu, hd]
    simp [UrlLib.removeUnsafe]
  | cons c t =>
    have hc : c = '#' := by
      have := dropWhile_head_false hd
      simpa using this
    subst hc
    refine ⟨'#' :: UrlLib.removeUnsafe t, ?_, Or.inr rfl⟩
    conv_lhs => rw [hu, hd]
    rw [UrlLib.removeUnsafe, UrlLib.removeUnsafe, List.filter_append]
    congr 1

theorem rawPath_append_frag {R f : List Char} (hR : ∀ c ∈ R, c ≠ '#')
    (hf : f = [] ∨ f.head? = some '#') :
    rawPath (R ++ f) = rawPath R ∧ rawQuery (R ++ f) = rawQuery R := by
  have htW : (R ++ f).takeWhile (fun c => c != '#') =
      R.takeWhile (fun c => c != '#') := by
    rw [takeWhile_append_all (fun c hc => bne_true_of_ne (hR c hc))]
    have hft : f.takeWhile (fun c => c != '#') = [] := by
      rcases hf with rfl | hf
      · rfl
      · cases f with
        | nil => rfl
        | cons c t =>
          simp only [List.head?_cons, Option.some.injEq] at hf
          subst hf
          rw [List.takeWhile_cons, if_neg (by simp)]
    rw [hft, List.append_nil]
    rw [takeWhile_all (fun c hc => bne_true_of_ne (hR c hc))]
  constructor
  · rw [rawPath, rawPath, htW]
  · rw [rawQuery, rawQuery, htW]

theorem mem_rawPath {R : List Char} {c : Char} (h : c ∈ rawPath R) :
    c ∈ R ∧ c ≠ '#' ∧ c ≠ '?' := by
  rw [rawPath] at h
  have h1 := ne_of_mem_takeWhile_bne h
  have h2 := mem_of_mem_takeWhile' h
  exact ⟨mem_of_mem_takeWhile' h2, ne_of_mem_takeWhile_bne h2, h1⟩

theorem mem_rawQuery {R : List Char} {c : Char} (h : c ∈ rawQuery R) :
    c ∈ R ∧ c ≠ '#' := by
  rw [rawQuery] at h
  have h2 := mem_of_mem_dropWhile (List.drop_subset _ _ h)
  exact ⟨mem_of_mem_takeWhile' h2, ne_of_mem_takeWhile_bne h2⟩

theorem parsePath_subset {x : List Char} : ∀ c ∈ parsePath x, c ∈ x := by
  rw [parsePath]
  split
  · exact fun c hc => splitparams_fst_subset c hc
  · exact fun c hc => hc

theorem parseParams_subset {x : List Char} : ∀ c ∈ parseParams x, c ∈ x := by
  rw [parseParams]
  split
  · exact fun c hc => splitparams_snd_subset c hc
  · simp

theorem parseParams_no_slash {x : List Char} : ∀ c ∈ parseParams x, c ≠ '/' := by
  rw [parseParams]
  split
  · exact fun c hc => splitparams_snd_no_slash c hc
  · simp

theorem head_mem_of_head? {x : List Char} {c : Char} (h : x.head? = some c) : c ∈ x := by
  cases x with
  | nil => simp at h
  | cons d t =>
    simp only [List.head?_cons, Option.some.injEq] at h
    rw [← h]
    exact List.mem_cons_self _ _

theorem parsePath_lastSeg_no_semi {x : List Char} (hx : x.head? = some '/') :
    ∀ c ∈ lastSeg (parsePath x), c ≠ ';' := by
  have hmem : '/' ∈ x := head_mem_of_head? hx
  rw [parsePath]
  by_cases hs : ';' ∈ x
  · rw [if_pos hs]
    exact lastSeg_fst_no_semi hmem
  · rw [if_neg hs]
    intro c hc hceq
    subst hceq
    apply hs
    rw [lastSeg, List.mem_reverse] at hc
    exact List.mem_reverse.mp (mem_of_mem_takeWhile' hc)

theorem ne_nil_of_removeUnsafe {u S rest : List Char}
    (hu : UrlLib.removeUnsafe u = S ++ rest) (hSne : S ≠ []) : u ≠ [] := by
  intro h0
  subst h0
  cases S with
  | nil => exact hSne rfl
  | cons c S' => simp [UrlLib.removeUnsafe] at hu

theorem not_startswith_slashes {u S rest : List Char}
    (hu : UrlLib.removeUnsafe u = S ++ rest) (hSne : S ≠ [])
    (halpha : (S.take 1).all Char.isAlpha = true) :
    startswith u "//".data = false := by
  by_contra hsw
  rw [Bool.not_eq_false] at hsw
  obtain ⟨t, ht⟩ : ∃ t, u = '/' :: '/' :: t := by
    have h := startswith_true_eq hsw
    exact ⟨u.drop 2, by simpa using h⟩
  have hru : UrlLib.removeUnsafe u = '/' :: '/' :: UrlLib.removeUnsafe t := by
    rw [ht, UrlLib.removeUnsafe, List.filter_cons, List.filter_cons,
      if_pos (by decide), if_pos (by decide)]
    rfl
  rw [hru] at hu
  cases S with
  | nil => exact hSne rfl
  | cons c S' =>
    rw [List.cons_append] at hu
    have hc : c = '/' := by
      have := congrArg List.head? hu
      simpa using this.symm
    subst hc
    simp at halpha

theorem normalise_eq (url : List Char) :
    Linkweb.normalise url =
      Linkweb.strip_fragment (UrlLib.urljoin Linkweb.BASE_URL
        (if startswith url "//".data then "https:".data ++ url else url)) := rfl

theorem strip_fragment_of_no_hash {A : List Char} (hA : ∀ c ∈ A, c ≠ '#') :
    Linkweb.strip_fragment A = A := by
  rw [Linkweb.strip_fragment]
  exact List.takeWhile_eq_self_iff.mpr (fun c hc => bne_true_of_ne (hA c hc))

theorem strip_fragment_append_frag {A F : List Char} (hA : ∀ c ∈ A, c ≠ '#')
    (hF : F = [] ∨ F.head? = some '#') :
    Linkweb.strip_fragment (A ++ F) = A := by
  rw [Linkweb.strip_fragment]
  rw [takeWhile_append_all (fun c hc => bne_true_of_ne (hA c hc))]
  have hft : F.takeWhile (fun c => c != '#') = [] := by
    rcases hF with rfl | hF
    · rfl
    · cases F with
      | nil => rfl
      | cons c t =>
        simp only [List.head?_cons, Option.some.injEq] at hF
        subst hF
        rw [List.takeWhile_cons, if_neg (by simp)]
  rw [hft, List.append_nil]

/-! ## urljoin branch lemmas and unparse computation -/

theorem urljoin_base_keep {u : List Char} (hu : u ≠ [])
    (hsch : (UrlLib.urlparse "https".data u).scheme ≠ "https".data) :
    UrlLib.urljoin Linkweb.BASE_URL u = u := by
  rw [urljoin_eq]
  rw [if_neg (show ¬(Linkweb.BASE_URL = []) by decide), if_neg hu]
  have hbs : (UrlLib.urlparse [] Linkweb.BASE_URL).scheme = "https".data := by decide
  rw [hbs]
  rw [if_pos (Or.inl hsch)]

theorem urljoin_base_netloc {u : List Char} (hu : u ≠ [])
    (hsch : (UrlLib.urlparse "https".data u).scheme = "https".data)
    (hnl : (UrlLib.urlparse "https".data u).netloc ≠ []) :
    UrlLib.urljoin Linkweb.BASE_URL u =
      UrlLib.urlunparse "https".data (UrlLib.urlparse "https".data u).netloc
        (UrlLib.urlparse "https".data u).path (UrlLib.urlparse "https".data u).params
        (UrlLib.urlparse "https".data u).query
        (UrlLib.urlparse "https".data u).fragment := by
  rw [urljoin_eq]
  rw [if_neg (show ¬(Linkweb.BASE_URL = []) by decide), if_neg hu]
  have hbs : (UrlLib.urlparse [] Linkweb.BASE_URL).scheme = "https".data := by decide
  rw [hbs]
  rw [if_neg (show ¬((UrlLib.urlparse "https".data u).scheme ≠ "https".data ∨
      (UrlLib.urlparse "https".data u).scheme ∉ UrlLib.uses_relative) by
    push_neg
    exact ⟨hsch, by rw [hsch]; decide⟩)]
  rw [if_pos ⟨by rw [hsch]; decide, hnl⟩]
  rw [hsch]

theorem urlunparse_canon (netloc path params query fragment : List Char)
    (hn : netloc ≠ []) (hpath : path.head? = some '/') :
    UrlLib.urlunparse "https".data netloc path params query fragment =
      "https".data ++ ':' :: '/' :: '/' ::
        (netloc ++ ((if params = [] then path else path ++ ';' :: params) ++
          ((if query = [] then [] else '?' :: query) ++
           (if fragment = [] then [] else '#' :: fragment)))) := by
  obtain ⟨pt, rfl⟩ : ∃ pt, path = '/' :: pt := by
    cases path with
    | nil => simp at hpath
    | cons c t =>
      simp only [List.head?_cons, Option.some.injEq] at hpath
      exact ⟨t, by rw [hpath]⟩
  have hn' : netloc.isEmpty = false := by
    cases netloc
    · exact absurd rfl hn
    · rfl
  rw [UrlLib.urlunparse, urlunsplit_eq]
  by_cases hp : params = [] <;> by_cases hq : query = [] <;> by_cases hfr : fragment = []
  all_goals
    simp [hp, hq, hfr, hn', startswith, List.append_assoc]

/-! ## Re-parsing the normalised output -/

theorem rawPath_PP {path params query : List Char}
    (hpath_h : ∀ c ∈ path, c ≠ '#') (hpath_q : ∀ c ∈ path, c ≠ '?')
    (hparams_h : ∀ c ∈ params, c ≠ '#') (hparams_q : ∀ c ∈ params, c ≠ '?')
    (hquery_h : ∀ c ∈ query, c ≠ '#') :
    rawPath ((if params = [] then path else path ++ ';' :: params) ++
        (if query = [] then [] else '?' :: query)) =
      (if params = [] then path else path ++ ';' :: params) ∧
    rawQuery ((if params = [] then path else path ++ ';' :: params) ++
        (if query = [] then [] else '?' :: query)) = query ∧
    rawFragment ((if params = [] then path else path ++ ';' :: params) ++
        (if query = [] then [] else '?' :: query)) = [] := by
  set PP := if params = [] then path else path ++ ';' :: params with hPP
  set QQ := if query = [] then [] else '?' :: query with hQQ
  have hPP_h : ∀ c ∈ PP, c ≠ '#' := by
    rw [hPP]
    exact forall_mem_ite hpath_h
      (forall_mem_append hpath_h (forall_mem_cons (by decide) hparams_h))
  have hPP_q : ∀ c ∈ PP, c ≠ '?' := by
    rw [hPP]
    exact forall_mem_ite hpath_q
      (forall_mem_append hpath_q (forall_mem_cons (by decide) hparams_q))
  have hQQ_h : ∀ c ∈ QQ, c ≠ '#' := by
    rw [hQQ]
    exact forall_mem_ite (by simp) (forall_mem_cons (by decide) hquery_h)
  have hall_h : ∀ c ∈ PP ++ QQ, c ≠ '#' := forall_mem_append hPP_h hQQ_h
  have htW : (PP ++ QQ).takeWhile (fun c => c != '#') = PP ++ QQ :=
    takeWhile_all (fun c hc => bne_true_of_ne (hall_h c hc))
  refine ⟨?_, ?_, ?_⟩
  · rw [rawPath, htW]
    rw [takeWhile_append_all (fun c hc => bne_true_of_ne (hPP_q c hc))]
    have : QQ.takeWhile (fun c => c != '?') = [] := by
      rw [hQQ]
      split
      · rfl
      · rw [List.takeWhile_cons, if_neg (by simp)]
    rw [this, List.append_nil]
  · rw [rawQuery, htW]
    rw [dropWhile_append_all (fun c hc => bne_true_of_ne (hPP_q c hc))]
    rw [hQQ]
    by_cases hq : query = []
    · rw [if_pos hq, hq]
      rfl
    · rw [if_neg hq]
      rw [List.dropWhile_cons, if_neg (by simp)]
      rfl
  · rw [rawFragment]
    rw [dropWhile_all (fun c hc => bne_true_of_ne (hall_h c hc))]
    rfl

theorem parsePath_PP {path params : List Char}
    (hslash : path.head? = some '/')
    (hlastseg : ∀ c ∈ lastSeg path, c ≠ ';')
    (hparams_slash : ∀ c ∈ params, c ≠ '/') :
    parsePath (if params = [] then path else path ++ ';' :: params) = path ∧
    parseParams (if params = [] then path else path ++ ';' :: params) = params := by
  have hslash_mem : '/' ∈ path := head_mem_of_head? hslash
  by_cases hp : params = []
  · rw [if_pos hp, parsePath, parseParams]
    by_cases hsemi : ';' ∈ path
    · rw [if_pos hsemi, if_pos hsemi, splitparams_noop hslash_mem hlastseg]
      exact ⟨rfl, hp.symm⟩
    · rw [if_neg hsemi, if_neg hsemi]
      exact ⟨rfl, hp.symm⟩
  · rw [if_neg hp, parsePath, parseParams]
    have hsemi : ';' ∈ path ++ ';' :: params :=
      List.mem_append_right _ (List.mem_cons_self _ _)
    rw [if_pos hsemi, if_pos hsemi,
      splitparams_roundtrip hslash_mem hlastseg hparams_slash]
    exact ⟨rfl, rfl⟩

theorem normalise_fixed_canonical (path params query : List Char)
    (hpath_head : path.head? = some '/')
    (hpath_h : ∀ c ∈ path, c ≠ '#') (hpath_q : ∀ c ∈ path, c ≠ '?')
    (hparams_h : ∀ c ∈ params, c ≠ '#') (hparams_q : ∀ c ∈ params, c ≠ '?')
    (hparams_s : ∀ c ∈ params, c ≠ '/')
    (hquery_h : ∀ c ∈ query, c ≠ '#')
    (hlastseg : ∀ c ∈ lastSeg path, c ≠ ';')
    (hclean : ∀ c ∈ path ++ params ++ query, UrlLib.unsafeByte c = false) :
    Linkweb.normalise ("https".data ++ ':' :: '/' :: '/' ::
      (NETLOC ++ ((if params = [] then path else path ++ ';' :: params) ++
        (if query = [] then [] else '?' :: query)))) =
      "https".data ++ ':' :: '/' :: '/' ::
        (NETLOC ++ ((if params = [] then path else path ++ ';' :: params) ++
          (if query = [] then [] else '?' :: query))) := by
  have hpath_clean : ∀ c ∈ path, UrlLib.unsafeByte c = false :=
    fun c hc => hclean c (by simp [hc])
  have hparams_clean : ∀ c ∈ params, UrlLib.unsafeByte c = false :=
    fun c hc => hclean c (by simp [hc])
  have hquery_clean : ∀ c ∈ query, UrlLib.unsafeByte c = false :=
    fun c hc => hclean c (by simp [hc])
  set PP := if params = [] then path else path ++ ';' :: params with hPP
  set QQ := if query = [] then ([] : List Char) else '?' :: query with hQQ
  set n := "https".data ++ ':' :: '/' :: '/' :: (NETLOC ++ (PP ++ QQ)) with hn
  have hPP_head : PP.head? = some '/' := by
    rw [hPP]
    by_cases hp : params = []
    · rw [if_pos hp]
      exact hpath_head
    · rw [if_neg hp]
      exact head?_append_left _ hpath_head
  have hR2_head : (PP ++ QQ).head? = some '/' := head?_append_left _ hPP_head
  have hn_clean : UrlLib.removeUnsafe n = n := by
    rw [UrlLib.removeUnsafe]
    apply List.filter_eq_self.mpr
    intro c hc
    rw [hn] at hc
    have hok : UrlLib.unsafeByte c = false := by
      rcases List.mem_append.mp hc with h | h
      · have : ∀ d ∈ "https".data, UrlLib.unsafeByte d = false := by decide
        exact this c h
      · rcases List.mem_cons.mp h with rfl | h
        · decide
        · rcases List.mem_cons.mp h with rfl | h
          · decide
          · rcases List.mem_cons.mp h with rfl | h
            · decide
            · rcases List.mem_append.mp h with h | h
              · have : ∀ d ∈ NETLOC, UrlLib.unsafeByte d = false := by decide
                exact this c h
              · rcases List.mem_append.mp h with h | h
                · revert h
                  refine forall_mem_ite hpath_clean
                    (forall_mem_append hpath_clean
                      (forall_mem_cons (by decide) hparams_clean)) c
                · revert h
                  exact forall_mem_ite (by simp)
                    (forall_mem_cons (by decide) hquery_clean) c
    simp [hok]
  have hn_ne : n ≠ [] := by
    rw [hn]
    simp
  have hn_sw : startswith n "//".data = false := by
    rw [hn]
    exact startswith_cons_of_head (by decide)
  have hparse_n := urlparse_canon "https".data n "https".data (PP ++ QQ)
    (by rw [hn_clean, hn]) (by decide) (by decide) (by decide) (by decide)
    hR2_head (Or.inr (by decide))
  have hraw2 := rawPath_PP hpath_h hpath_q hparams_h hparams_q hquery_h
  have hpp2 := parsePath_PP hpath_head hlastseg hparams_s
  have hcomp_scheme : (UrlLib.urlparse "https".data n).scheme = "https".data := by
    rw [hparse_n]
    show pyLower "https".data = "https".data
    decide
  have hcomp_netloc : (UrlLib.urlparse "https".data n).netloc = NETLOC := by
    rw [hparse_n]
  have hcomp_path : (UrlLib.urlparse "https".data n).path = path := by
    rw [hparse_n]
    show parsePath (rawPath (PP ++ QQ)) = path
    rw [hPP, hQQ]
    rw [hraw2.1]
    exact hpp2.1
  have hcomp_params : (UrlLib.urlparse "https".data n).params = params := by
    rw [hparse_n]
    show parseParams (rawPath (PP ++ QQ)) = params
    rw [hPP, hQQ]
    rw [hraw2.1]
    exact hpp2.2
  have hcomp_query : (UrlLib.urlparse "https".data n).query = query := by
    rw [hparse_n]
    show rawQuery (PP ++ QQ) = query
    rw [hPP, hQQ]
    exact hraw2.2.1
  have hcomp_frag : (UrlLib.urlparse "https".data n).fragment = [] := by
    rw [hparse_n]
    show rawFragment (PP ++ QQ) = []
    rw [hPP, hQQ]
    exact hraw2.2.2
  have hjoin := urljoin_base_netloc hn_ne hcomp_scheme
    (by rw [hcomp_netloc]; decide)
  rw [hcomp_netloc, hcomp_path, hcomp_params, hcomp_query, hcomp_frag] at hjoin
  rw [urlunparse_canon NETLOC path params query [] (by decide) hpath_head] at hjoin
  rw [normalise_eq, if_neg (by simp [hn_sw]), hjoin]
  have hn_h : ∀ c ∈ "https".data ++ ':' :: '/' :: '/' ::
      (NETLOC ++ ((if params = [] then path else path ++ ';' :: params) ++
        ((if query = [] then [] else '?' :: query) ++
         (if ([] : List Char) = [] then [] else '#' :: ([] : List Char))))), c ≠ '#' := by
    refine forall_mem_append (by decide) ?_
    refine forall_mem_cons (by decide) (forall_mem_cons (by decide)
      (forall_mem_cons (by decide) ?_))
    refine forall_mem_append (by decide) ?_
    refine forall_mem_append ?_ (forall_mem_append ?_ ?_)
    · exact forall_mem_ite hpath_h
        (forall_mem_append hpath_h (forall_mem_cons (by decide) hparams_h))
    · exact forall_mem_ite (by simp) (forall_mem_cons (by decide) hquery_h)
    · simp
  rw [strip_fragment_of_no_hash hn_h]
  rw [hn, hPP, hQQ]
  simp

/-- C3: for every URL accepted by the scope filter `is_internal`,
normalisation is idempotent: `normalise (normalise u) = normalise u`. -/
theorem C3_normalise_idempotent (u : List Char)
    (H : Linkweb.is_internal u = true) :
    Linkweb.normalise (Linkweb.normalise u) = Linkweb.normalise u := by
  obtain ⟨S, R, hw, hSne, hScolon, hSalpha, hSsch, hlow, hRhead, hPhead⟩ :=
    is_internal_inversion H
  obtain ⟨f, hru, hf⟩ := removeUnsafe_decomp u
  have hru' : UrlLib.removeUnsafe u =
      S ++ ':' :: '/' :: '/' :: (NETLOC ++ (R ++ f)) := by
    rw [hru, hw]
    simp [List.append_assoc]
  have hRf_head : (R ++ f).head? = some '/' := head?_append_left f hRhead
  have hR_no_hash : ∀ c ∈ R, c ≠ '#' := by
    intro c hc
    apply strip_no_hash (u := u)
    rw [hw]
    simp [hc]
  have hraw := rawPath_append_frag hR_no_hash hf
  have hu_ne : u ≠ [] := ne_nil_of_removeUnsafe hru' hSne
  have hu_sw : startswith u "//".data = false :=
    not_startswith_slashes hru' hSne hSalpha
  have hparse_u := urlparse_canon "https".data u S (R ++ f) hru' hSne hScolon
    hSalpha hSsch hRf_head hlow
  have hnorm_u_eq : Linkweb.normalise u =
      Linkweb.strip_fragment (UrlLib.urljoin Linkweb.BASE_URL u) := by
    rw [normalise_eq, if_neg (by simp [hu_sw])]
  rcases hlow with hcase | hcase
  · -- scheme lowercases to "http": urljoin keeps the reference as is
    have hsch_ne : (UrlLib.urlparse "https".data u).scheme ≠ "https".data := by
      have h1 : (UrlLib.urlparse "https".data u).scheme = pyLower S := by
        rw [hparse_u]
      rw [h1, hcase]
      decide
    have hnu : Linkweb.normalise u = Linkweb.strip_fragment u := by
      rw [hnorm_u_eq, urljoin_base_keep hu_ne hsch_ne]
    rw [hnu]
    have hwv : UrlLib.removeUnsafe (Linkweb.strip_fragment u) =
        S ++ ':' :: '/' :: '/' :: (NETLOC ++ R) := hw
    have hv_ne : Linkweb.strip_fragment u ≠ [] := ne_nil_of_removeUnsafe hwv hSne
    have hv_sw : startswith (Linkweb.strip_fragment u) "//".data = false :=
      not_startswith_slashes hwv hSne hSalpha
    have hparse_v := urlparse_canon "https".data (Linkweb.strip_fragment u) S R
      hwv hSne hScolon hSalpha hSsch hRhead (Or.inl hcase)
    have hsch_ne_v :
        (UrlLib.urlparse "https".data (Linkweb.strip_fragment u)).scheme ≠
          "https".data := by
      have h1 : (UrlLib.urlparse "https".data (Linkweb.strip_fragment u)).scheme =
          pyLower S := by
        rw [hparse_v]
      rw [h1, hcase]
      decide
    rw [normalise_eq, if_neg (by simp [hv_sw])]
    rw [urljoin_base_keep hv_ne hsch_ne_v]
    exact strip_fragment_of_no_hash (fun c hc => ne_of_mem_takeWhile_bne hc)
  · -- scheme lowercases to "https": urljoin re-assembles the reference
    have hcomp_scheme : (UrlLib.urlparse "https".data u).scheme = "https".data := by
      rw [hparse_u]
      exact hcase
    have hcomp_netloc : (UrlLib.urlparse "https".data u).netloc = NETLOC := by
      rw [hparse_u]
    have hcomp_path : (UrlLib.urlparse "https".data u).path =
        parsePath (rawPath R) := by
      rw [hparse_u]
      show parsePath (rawPath (R ++ f)) = parsePath (rawPath R)
      rw [hraw.1]
    have hcomp_params : (UrlLib.urlparse "https".data u).params =
        parseParams (rawPath R) := by
      rw [hparse_u]
      show parseParams (rawPath (R ++ f)) = parseParams (rawPath R)
      rw [hraw.1]
    have hcomp_query : (UrlLib.urlparse "https".data u).query = rawQuery R := by
      rw [hparse_u]
      exact hraw.2
    have hjoin := urljoin_base_netloc hu_ne hcomp_scheme
      (by rw [hcomp_netloc]; decide)
    rw [hcomp_netloc, hcomp_path, hcomp_params, hcomp_query] at hjoin
    rw [urlunparse_canon NETLOC (parsePath (rawPath R)) (parseParams (rawPath R))
      (rawQuery R) (UrlLib.urlparse "https".data u).fragment (by decide) hPhead]
      at hjoin
    -- character-class facts for the reassembled URL
    have hpath_h : ∀ c ∈ parsePath (rawPath R), c ≠ '#' :=
      fun c hc => (mem_rawPath (parsePath_subset c hc)).2.1
    have hpath_q : ∀ c ∈ parsePath (rawPath R), c ≠ '?' :=
      fun c hc => (mem_rawPath (parsePath_subset c hc)).2.2
    have hparams_h : ∀ c ∈ parseParams (rawPath R), c ≠ '#' :=
      fun c hc => (mem_rawPath (parseParams_subset c hc)).2.1
    have hparams_q : ∀ c ∈ parseParams (rawPath R), c ≠ '?' :=
      fun c hc => (mem_rawPath (parseParams_subset c hc)).2.2
    have hquery_h : ∀ c ∈ rawQuery R, c ≠ '#' := fun c hc => (mem_rawQuery hc).2
    have hA_h : ∀ c ∈ "https".data ++ ':' :: '/' :: '/' ::
        (NETLOC ++ ((if parseParams (rawPath R) = [] then parsePath (rawPath R)
            else parsePath (rawPath R) ++ ';' :: parseParams (rawPath R)) ++
          (if rawQuery R = [] then [] else '?' :: rawQuery R))), c ≠ '#' := by
      refine forall_mem_append (by decide) ?_
      refine forall_mem_cons (by decide) (forall_mem_cons (by decide)
        (forall_mem_cons (by decide) ?_))
      refine forall_mem_append (by decide) ?_
      refine forall_mem_append ?_ ?_
      · exact forall_mem_ite hpath_h
          (forall_mem_append hpath_h (forall_mem_cons (by decide) hparams_h))
      · exact forall_mem_ite (by simp) (forall_mem_cons (by decide) hquery_h)
    have hFF : (if (UrlLib.urlparse "https".data u).fragment = []
        then ([] : List Char)
        else '#' :: (UrlLib.urlparse "https".data u).fragment) = [] ∨
        (if (UrlLib.urlparse "https".data u).fragment = [] then ([] : List Char)
        else '#' :: (UrlLib.urlparse "https".data u).fragment).head? = some '#' := by
      split
      · exact Or.inl rfl
      · exact Or.inr rfl
    have hassoc : "https".data ++ ':' :: '/' :: '/' ::
        (NETLOC ++ ((if parseParams (rawPath R) = [] then parsePath (rawPath R)
            else parsePath (rawPath R) ++ ';' :: parseParams (rawPath R)) ++
          ((if rawQuery R = [] then [] else '?' :: rawQuery R) ++
           (if (UrlLib.urlparse "https".data u).fragment = [] then []
            else '#' :: (UrlLib.urlparse "https".data u).fragment)))) =
        ("https".data ++ ':' :: '/' :: '/' ::
          (NETLOC ++ ((if parseParams (rawPath R) = [] then parsePath (rawPath R)
              else parsePath (rawPath R) ++ ';' :: parseParams (rawPath R)) ++
            (if rawQuery R = [] then [] else '?' :: rawQuery R)))) ++
          (if (UrlLib.urlparse "https".data u).fragment = [] then []
           else '#' :: (UrlLib.urlparse "https".data u).fragment) := by
      simp [List.append_assoc]
    rw [hassoc] at hjoin
    have hnu : Linkweb.normalise u = "https".data ++ ':' :: '/' :: '/' ::
        (NETLOC ++ ((if parseParams (rawPath R) = [] then parsePath (rawPath R)
            else parsePath (rawPath R) ++ ';' :: parseParams (rawPath R)) ++
          (if rawQuery R = [] then [] else '?' :: rawQuery R))) := by
      rw [hnorm_u_eq, hjoin]
      exact strip_fragment_append_frag hA_h hFF
    rw [hnu]
    have hR_clean : ∀ c ∈ R, UrlLib.unsafeByte c = false := by
      intro c hc
      apply removeUnsafe_mem (x := Linkweb.strip_fragment u)
      rw [hw]
      simp [hc]
    apply normalise_fixed_canonical (parsePath (rawPath R)) (parseParams (rawPath R))
      (rawQuery R) hPhead hpath_h hpath_q hparams_h hparams_q
      parseParams_no_slash hquery_h
      (parsePath_lastSeg_no_semi (parsePath_head hPhead))
    refine forall_mem_append (forall_mem_append ?_ ?_) ?_
    · exact fun c hc => hR_clean c (mem_rawPath (parsePath_subset c hc)).1
    · exact fun c hc => hR_clean c (mem_rawPath (parseParams_subset c hc)).1
    · exact fun c hc => hR_clean c (mem_rawQuery hc).1

theorem C3_normalise_idempotent_witness :
    Linkweb.is_internal "https://sustainability.ucsc.edu/about#x".data = true ∧
    Linkweb.normalise
      (Linkweb.normalise "https://sustainability.ucsc.edu/about#x".data) =
      Linkweb.normalise "https://sustainability.ucsc.edu/about#x".data := by
  exact ⟨by decide, C3_normalise_idempotent _ (by decide)⟩
